import Mathlib

set_option maxHeartbeats 1000000

/-!
Shallow embedding of the RimWorld def-viewer generator (`src/main.rs`).

The embedding covers the core pipeline: the element tree builder
(`parse_xml_file`, modelled as a fold over the XML event stream that the
external `quick_xml` reader produces), the record profiler (the record
construction at the end of an element, `generate_tags`, `calculate_stats`),
the reference extractor (`extract_references` /
`extract_references_recursive`) and the reference graph resolver
(`build_reference_mappings`).  Rust `HashMap` attributes are modelled as
association lists with insert-or-overwrite semantics; `Vec` push
accumulation is modelled as list append in the same order; `Vec::sort`
followed by `Vec::dedup` is modelled as a sort followed by removal of
adjacent duplicates (for a linear order the sorted permutation of a list
of strings is unique, so the choice of sorting algorithm is immaterial).
-/

/-- `DefElement` from `src/main.rs`: a node of the parsed tree. -/
inductive DefElement : Type where
  | mk (name : String) (attributes : List (String × String)) (content : Option String)
      (children : List DefElement) (depth : Nat)

def DefElement.name : DefElement → String
  | .mk n _ _ _ _ => n

def DefElement.attributes : DefElement → List (String × String)
  | .mk _ a _ _ _ => a

def DefElement.content : DefElement → Option String
  | .mk _ _ c _ _ => c

def DefElement.children : DefElement → List DefElement
  | .mk _ _ _ ch _ => ch

def DefElement.depth : DefElement → Nat
  | .mk _ _ _ _ d => d

/-- Overwrite the `content` field (the Rust text-event handler). -/
def DefElement.setContent : DefElement → Option String → DefElement
  | .mk n a _ ch d, c => .mk n a c ch d

/-- Append a completed child element (the Rust end-event handler). -/
def DefElement.pushChild : DefElement → DefElement → DefElement
  | .mk n a c ch d, e => .mk n a c (ch ++ [e]) d

/-- `DefStats` from `src/main.rs`. -/
structure DefStats : Type where
  element_count : Nat
  max_depth : Nat
  has_complex_structure : Bool

/-- `RimWorldDef` from `src/main.rs` (fields derived from the originating
file path — `file_path`, `raw_xml`, `extension` — are omitted: they come
from the external file-discovery collaborator and play no role in the
parser, profiler, extractor or resolver). -/
structure RimWorldDef : Type where
  def_name : String
  def_type : String
  label : Option String
  description : Option String
  parent_name : Option String
  is_abstract : Bool
  elements : List DefElement
  tags : List String
  stats : Option DefStats
  references_out : List String
  references_in : List String
  code_references : List String

/-- Rust `HashMap::insert`: overwrite an existing key, otherwise add. -/
def insertAttr (m : List (String × String)) (key value : String) : List (String × String) :=
  if m.any (fun p => p.1 == key) then
    m.map (fun p => if p.1 == key then (key, value) else p)
  else m ++ [(key, value)]

/-- Building the attribute map of one start tag, inserting in document order. -/
def buildAttrs (attrs : List (String × String)) : List (String × String) :=
  attrs.foldl (fun m kv => insertAttr m kv.1 kv.2) []

/-- Rust `HashMap::get` on the attribute map. -/
def getAttr (m : List (String × String)) (key : String) : Option String :=
  (m.find? (fun p => p.1 == key)).map (fun p => p.2)

/-- `count_elements` from `src/main.rs`:
`elements.len() + Σ count_elements(e.children)`. -/
def count_elements : List DefElement → Nat
  | [] => 0
  | .mk _ _ _ ch _ :: es => 1 + count_elements ch + count_elements es

mutual

/-- `calculate_max_depth` from `src/main.rs`: the maximum over the per-element
depth values, with the current depth as the default for an empty list. -/
def calculate_max_depth (elements : List DefElement) (current_depth : Nat) : Nat :=
  (maxDepthVals elements current_depth).max?.getD current_depth

/-- The list of values that `calculate_max_depth` maximises over. -/
def maxDepthVals : List DefElement → Nat → List Nat
  | [], _ => []
  | .mk _ _ _ ch _ :: es, d =>
    (if ch.isEmpty then d + 1 else calculate_max_depth ch (d + 1)) :: maxDepthVals es d

end

/-- `calculate_stats` from `src/main.rs`. -/
def calculate_stats (elements : List DefElement) : Option DefStats :=
  if elements.isEmpty then none
  else
    let element_count := count_elements elements
    let max_depth := calculate_max_depth elements 0
    some { element_count := element_count
           max_depth := max_depth
           has_complex_structure := decide (element_count > 20) || decide (max_depth > 4) }

/-- `generate_tags` from `src/main.rs`. -/
def generate_tags (element : DefElement) (is_abstract has_parent : Bool) : List String :=
  let common_elements := element.children.map DefElement.name
  (if is_abstract then ["Abstract"] else []) ++
  (if has_parent then ["Inherits"] else []) ++
  (if common_elements.contains "costList" then ["Craftable"] else []) ++
  (if common_elements.contains "researchPrerequisites" then ["Research Required"] else []) ++
  (if common_elements.contains "statBases" then ["Has Stats"] else []) ++
  (if common_elements.contains "comps" then ["Has Components"] else []) ++
  (if common_elements.contains "recipes" then ["Has Recipes"] else [])

/-- Record construction on completing a record root (lines 213-254 of
`src/main.rs`): identity, label, description, parent pointer,
abstractness, tags and stats. -/
def mkRecord (element : DefElement) : RimWorldDef :=
  let def_name :=
    match getAttr element.attributes "Name" with
    | some v => v
    | none =>
      match (element.children.find? (fun c => c.name == "defName")).bind DefElement.content with
      | some v => v
      | none => "Unknown"
  let parent_name := getAttr element.attributes "ParentName"
  let is_abstract := ((getAttr element.attributes "Abstract").map (fun v => v == "True")).getD false
  { def_name := def_name
    def_type := element.name
    label := (element.children.find? (fun c => c.name == "label")).bind DefElement.content
    description := (element.children.find? (fun c => c.name == "description")).bind DefElement.content
    parent_name := parent_name
    is_abstract := is_abstract
    elements := element.children
    tags := generate_tags element is_abstract parent_name.isSome
    stats := calculate_stats element.children
    references_out := []
    references_in := []
    code_references := [] }

/-- The events delivered by the external markup reader (`quick_xml`):
start tags with their attributes, end tags, and text runs. -/
inductive XmlEvent : Type where
  | start (name : String) (attrs : List (String × String))
  | endTag (name : String)
  | text (raw : String)

/-- The mutable state of `parse_xml_file`. -/
structure ParseState : Type where
  element_stack : List DefElement
  in_defs : Bool
  parsed_defs : List RimWorldDef

/-- One iteration of the event loop of `parse_xml_file` (lines 155-275 of
`src/main.rs`).  The element stack is modelled with its top at the head. -/
def parseStep (st : ParseState) (ev : XmlEvent) : ParseState :=
  match ev with
  | .start name attrs =>
    if name == "Defs" then { st with in_defs := true }
    else if st.in_defs then
      let element : DefElement := .mk name (buildAttrs attrs) none [] st.element_stack.length
      { st with element_stack := element :: st.element_stack }
    else st
  | .endTag name =>
    if name == "Defs" then { st with in_defs := false }
    else if st.in_defs then
      match st.element_stack with
      | [] => st
      | element :: rest =>
        match rest with
        | [] =>
          { st with element_stack := [], parsed_defs := st.parsed_defs ++ [mkRecord element] }
        | parent :: rest2 =>
          { st with element_stack := parent.pushChild element :: rest2 }
    else st
  | .text raw =>
    let text := raw.trim
    if text ≠ "" then
      match st.element_stack with
      | [] => st
      | top :: rest => { st with element_stack := top.setContent (some text) :: rest }
    else st

/-- `parse_xml_file` from `src/main.rs`: fold the event stream of one file
and return the records parsed out of it. -/
def parse_xml_file (events : List XmlEvent) : List RimWorldDef :=
  (events.foldl parseStep { element_stack := [], in_defs := false, parsed_defs := [] }).parsed_defs

mutual

/-- The per-element part of `extract_references_recursive` from
`src/main.rs`: candidate tokens pushed for one element, in push order
(tag name, text content, attribute values, then the children). -/
def extract_elem : DefElement → List String × List String
  | .mk name attrs content children _ =>
    let nameRefs : List String := if name != "defName" && name != "li" then [name] else []
    let contentRefs : List String :=
      match content with
      | some c => if name != "defName" then [c] else []
      | none => []
    let attrRefs : List String :=
      attrs.filterMap (fun kv => if kv.1 != "Class" then some kv.2 else none)
    let attrCode : List String :=
      attrs.filterMap (fun kv => if kv.1 == "Class" then some kv.2 else none)
    let rest := extract_references_recursive children
    (nameRefs ++ contentRefs ++ attrRefs ++ rest.1, attrCode ++ rest.2)

/-- `extract_references_recursive` from `src/main.rs`. -/
def extract_references_recursive : List DefElement → List String × List String
  | [] => ([], [])
  | e :: es =>
    let hd := extract_elem e
    let tl := extract_references_recursive es
    (hd.1 ++ tl.1, hd.2 ++ tl.2)

end

/-- Rust `Vec::dedup`: remove adjacent duplicates. -/
def dedupAdj : List String → List String
  | [] => []
  | [a] => [a]
  | a :: b :: t => if a == b then dedupAdj (b :: t) else a :: dedupAdj (b :: t)

/-- Lexicographic comparison of character sequences: the order that Rust
`Ord` on `String` induces (UTF-8 byte order equals code-point order). -/
def charsLe : List Char → List Char → Bool
  | [], _ => true
  | _ :: _, [] => false
  | a :: as, b :: bs => if a < b then true else if b < a then false else charsLe as bs

/-- Rust string comparison: lexicographic on the characters. -/
def strLe (a b : String) : Bool := charsLe a.data b.data

/-- The string order used by `Vec::sort`, as a relation. -/
def strLeOrd (a b : String) : Prop := strLe a b = true

/-- Insert a string into a sorted list (one step of the sort). -/
def insertSorted (x : String) : List String → List String
  | [] => [x]
  | y :: t => if strLe x y then x :: y :: t else y :: insertSorted x t

/-- Rust `Vec::sort` on strings (stable; for a total order on strings the
sorted permutation is unique as a list, so insertion sort models it
exactly). -/
def sortRefs : List String → List String
  | [] => []
  | x :: t => insertSorted x (sortRefs t)

/-- `extract_references` from `src/main.rs`: recursive collection, then
sort and dedup of both token lists. -/
def extract_references (elements : List DefElement) : List String × List String :=
  let p := extract_references_recursive elements
  (dedupAdj (sortRefs p.1), dedupAdj (sortRefs p.2))

/-- The validity filter of the resolver (lines 406-410 of `src/main.rs`):
keep candidate tokens that are a known def name and differ from the
record's own name. -/
def validRefs (names : List String) (d : RimWorldDef) : List String :=
  (extract_references d.elements).1.filter (fun r => names.contains r && r != d.def_name)

/-- Apply a function to the element at one index of a list (Rust
`self.parsed_defs[i] = ...` style in-place update). -/
def modifyIdx : List α → Nat → (α → α) → List α
  | [], _, _ => []
  | a :: t, 0, f => f a :: t
  | a :: t, n + 1, f => a :: modifyIdx t n f

/-- The body of the incoming-reference loop (lines 421-428 of
`src/main.rs`): on the record for one target of reference `r`, append the
source record's name `src` to `references_in` when the target's name
matches `r`. -/
def appendTo (src r : String) (t : RimWorldDef) : RimWorldDef :=
  if t.def_name == r then { t with references_in := t.references_in ++ [src] } else t

/-- One iteration of the second pass of `build_reference_mappings`
(lines 401-429 of `src/main.rs`): extract and filter record `i`'s
references, store them as its `references_out` and `code_references`, and
append its name to the `references_in` of every record whose name matches
each surviving reference. -/
def pass2At (names : List String) (state : List RimWorldDef) (i : Nat) : List RimWorldDef :=
  match state[i]? with
  | none => state
  | some d =>
    let valid_refs := validRefs names d
    let code_refs := (extract_references d.elements).2
    let state1 := modifyIdx state i
      (fun t => { t with references_out := valid_refs, code_references := code_refs })
    valid_refs.foldl (fun st r => st.map (appendTo d.def_name r)) state1

/-- One iteration of the parent-reference pass of
`build_reference_mappings` (lines 432-443 of `src/main.rs`): append record
`i`'s name to the `references_in` of every record whose name equals its
`parent_name`, unless already present. -/
def parentAt (state : List RimWorldDef) (i : Nat) : List RimWorldDef :=
  match state[i]? with
  | none => state
  | some d =>
    match d.parent_name with
    | none => state
    | some p =>
      state.map (fun t =>
        if t.def_name == p && !(t.references_in.contains d.def_name) then
          { t with references_in := t.references_in ++ [d.def_name] }
        else t)

/-- `build_reference_mappings` from `src/main.rs`: the def-name multimap is
keyed by every record's name; then the reference pass and the parent pass
run over all indices in order. -/
def build_reference_mappings (defs : List RimWorldDef) : List RimWorldDef :=
  let names := defs.map RimWorldDef.def_name
  let afterRefs := (List.range defs.length).foldl (pass2At names) defs
  (List.range afterRefs.length).foldl parentAt afterRefs

mutual

/-- Depth-numbering invariant: an element's stored `depth` equals `d` and
every child satisfies the invariant at `d + 1`. -/
def depthOkFrom : Nat → DefElement → Bool
  | d, .mk _ _ _ children dep => dep == d && depthOkList (d + 1) children

/-- `depthOkFrom` over a list of siblings. -/
def depthOkList : Nat → List DefElement → Bool
  | _, [] => true
  | d, e :: es => depthOkFrom d e && depthOkList d es

end

mutual

/-- Some element of the subtree rooted at this element satisfies `p`. -/
def occursElem (p : DefElement → Bool) : DefElement → Bool
  | .mk n a c ch d => p (.mk n a c ch d) || occursList p ch

/-- Some element of one of these subtrees satisfies `p`. -/
def occursList (p : DefElement → Bool) : List DefElement → Bool
  | [] => false
  | e :: es => occursElem p e || occursList p es

end

/-- The emission rules of the spec for candidate record-identity tokens,
read off one element: its tag name unless the tag is `defName` or `li`;
its text content unless the tag is `defName`; every attribute value whose
key is not `Class`. -/
def candRule (s : String) (e : DefElement) : Bool :=
  (e.name == s && e.name != "defName" && e.name != "li") ||
  (e.content == some s && e.name != "defName") ||
  e.attributes.any (fun kv => kv.2 == s && kv.1 != "Class")

/-- The emission rule of the spec for external-symbol tokens: the values
of attributes keyed exactly `Class`. -/
def classRule (s : String) (e : DefElement) : Bool :=
  e.attributes.any (fun kv => kv.1 == "Class" && kv.2 == s)

/-! ### Basic lemmas about the embedded data structures -/

@[simp] theorem DefElement.name_mk (n : String) (a : List (String × String))
    (c : Option String) (ch : List DefElement) (d : Nat) :
    (DefElement.mk n a c ch d).name = n := rfl

@[simp] theorem DefElement.attributes_mk (n : String) (a : List (String × String))
    (c : Option String) (ch : List DefElement) (d : Nat) :
    (DefElement.mk n a c ch d).attributes = a := rfl

@[simp] theorem DefElement.content_mk (n : String) (a : List (String × String))
    (c : Option String) (ch : List DefElement) (d : Nat) :
    (DefElement.mk n a c ch d).content = c := rfl

@[simp] theorem DefElement.children_mk (n : String) (a : List (String × String))
    (c : Option String) (ch : List DefElement) (d : Nat) :
    (DefElement.mk n a c ch d).children = ch := rfl

@[simp] theorem DefElement.depth_mk (n : String) (a : List (String × String))
    (c : Option String) (ch : List DefElement) (d : Nat) :
    (DefElement.mk n a c ch d).depth = d := rfl

@[simp] theorem DefElement.depth_setContent (e : DefElement) (c : Option String) :
    (e.setContent c).depth = e.depth := by cases e; rfl

@[simp] theorem DefElement.children_setContent (e : DefElement) (c : Option String) :
    (e.setContent c).children = e.children := by cases e; rfl

@[simp] theorem DefElement.depth_pushChild (e x : DefElement) :
    (e.pushChild x).depth = e.depth := by cases e; rfl

@[simp] theorem DefElement.children_pushChild (e x : DefElement) :
    (e.pushChild x).children = e.children ++ [x] := by cases e; rfl

theorem lt_of_getElem?_some {l : List α} {j : Nat} {x : α} (h : l[j]? = some x) :
    j < l.length := (List.getElem?_eq_some.mp h).1

theorem getElem?_some_of_lt {l : List α} {j : Nat} (h : j < l.length) :
    ∃ x, l[j]? = some x := ⟨l[j], List.getElem?_eq_some.mpr ⟨h, rfl⟩⟩

@[simp] theorem length_modifyIdx (l : List α) (i : Nat) (f : α → α) :
    (modifyIdx l i f).length = l.length := by
  induction l generalizing i with
  | nil => rfl
  | cons a t ih => cases i <;> simp [modifyIdx, ih]

theorem getElem?_modifyIdx (l : List α) (i : Nat) (f : α → α) (j : Nat) :
    (modifyIdx l i f)[j]? = if i = j then (l[j]?).map f else l[j]? := by
  induction l generalizing i j with
  | nil => cases i <;> cases j <;> simp [modifyIdx]
  | cons a t ih =>
    cases i <;> cases j <;> simp [modifyIdx, ih]

theorem foldl_map_getElem? (g : β → α → α) (refs : List β) (s : List α) (j : Nat) :
    (refs.foldl (fun st r => st.map (g r)) s)[j]? =
      (s[j]?).map (fun t => refs.foldl (fun t r => g r t) t) := by
  induction refs generalizing s with
  | nil => simp only [List.foldl_nil]; cases s[j]? <;> rfl
  | cons r rest ih =>
    simp only [List.foldl_cons]
    rw [ih, List.getElem?_map]
    cases s[j]? <;> rfl

/-! ### The incoming-reference loop body -/

/-- The cumulative effect of the incoming-reference loop on one record. -/
def applyRefs (src : String) (refs : List String) (t : RimWorldDef) : RimWorldDef :=
  refs.foldl (fun t r => appendTo src r t) t

@[simp] theorem appendTo_def_name (src r : String) (t : RimWorldDef) :
    (appendTo src r t).def_name = t.def_name := by
  unfold appendTo; split <;> rfl

@[simp] theorem appendTo_parent_name (src r : String) (t : RimWorldDef) :
    (appendTo src r t).parent_name = t.parent_name := by
  unfold appendTo; split <;> rfl

@[simp] theorem appendTo_elements (src r : String) (t : RimWorldDef) :
    (appendTo src r t).elements = t.elements := by
  unfold appendTo; split <;> rfl

@[simp] theorem appendTo_references_out (src r : String) (t : RimWorldDef) :
    (appendTo src r t).references_out = t.references_out := by
  unfold appendTo; split <;> rfl

@[simp] theorem appendTo_code_references (src r : String) (t : RimWorldDef) :
    (appendTo src r t).code_references = t.code_references := by
  unfold appendTo; split <;> rfl

theorem applyRefs_def_name (src : String) (refs : List String) (t : RimWorldDef) :
    (applyRefs src refs t).def_name = t.def_name := by
  induction refs generalizing t with
  | nil => rfl
  | cons r rest ih =>
    show (applyRefs src rest (appendTo src r t)).def_name = t.def_name
    rw [ih, appendTo_def_name]

theorem applyRefs_parent_name (src : String) (refs : List String) (t : RimWorldDef) :
    (applyRefs src refs t).parent_name = t.parent_name := by
  induction refs generalizing t with
  | nil => rfl
  | cons r rest ih =>
    show (applyRefs src rest (appendTo src r t)).parent_name = t.parent_name
    rw [ih, appendTo_parent_name]

theorem applyRefs_elements (src : String) (refs : List String) (t : RimWorldDef) :
    (applyRefs src refs t).elements = t.elements := by
  induction refs generalizing t with
  | nil => rfl
  | cons r rest ih =>
    show (applyRefs src rest (appendTo src r t)).elements = t.elements
    rw [ih, appendTo_elements]

theorem applyRefs_references_out (src : String) (refs : List String) (t : RimWorldDef) :
    (applyRefs src refs t).references_out = t.references_out := by
  induction refs generalizing t with
  | nil => rfl
  | cons r rest ih =>
    show (applyRefs src rest (appendTo src r t)).references_out = t.references_out
    rw [ih, appendTo_references_out]

theorem applyRefs_code_references (src : String) (refs : List String) (t : RimWorldDef) :
    (applyRefs src refs t).code_references = t.code_references := by
  induction refs generalizing t with
  | nil => rfl
  | cons r rest ih =>
    show (applyRefs src rest (appendTo src r t)).code_references = t.code_references
    rw [ih, appendTo_code_references]

theorem applyRefs_references_in (src : String) (refs : List String) (t : RimWorldDef) :
    ∃ u, (applyRefs src refs t).references_in = t.references_in ++ u ∧
      (∀ x ∈ u, x = src) ∧ (src ∈ u ↔ t.def_name ∈ refs) := by
  induction refs generalizing t with
  | nil => exact ⟨[], by simp [applyRefs], by simp, by simp⟩
  | cons r rest ih =>
    obtain ⟨u, hu, hall, hmem⟩ := ih (appendTo src r t)
    have hstep : applyRefs src (r :: rest) t = applyRefs src rest (appendTo src r t) := rfl
    by_cases hb : t.def_name = r
    · refine ⟨[src] ++ u, ?_, ?_, ?_⟩
      · rw [hstep, hu]
        have : (appendTo src r t).references_in = t.references_in ++ [src] := by
          unfold appendTo
          rw [if_pos (by simpa using hb)]
        rw [this, List.append_assoc]
      · intro x hx
        rcases List.mem_append.mp hx with h | h
        · simpa using h
        · exact hall x h
      · simp [hb]
    · have hsk : appendTo src r t = t := by
        unfold appendTo
        rw [if_neg (by simpa using hb)]
      rw [hsk] at hu hmem
      refine ⟨u, ?_, hall, ?_⟩
      · rw [hstep, hsk]; exact hu
      · rw [hmem]; simp [List.mem_cons, hb]

/-! ### The parent-reference loop body -/

/-- The effect of one parent-pass iteration on one record: given the
(optional) source record, conditionally append its name. -/
def parentApply : Option RimWorldDef → RimWorldDef → RimWorldDef
  | none, t => t
  | some d, t =>
    match d.parent_name with
    | none => t
    | some p =>
      if t.def_name == p && !(t.references_in.contains d.def_name) then
        { t with references_in := t.references_in ++ [d.def_name] }
      else t

theorem parentApply_some_eq (d : RimWorldDef) (t : RimWorldDef) :
    parentApply (some d) t =
      match d.parent_name with
      | none => t
      | some p =>
        if t.def_name == p && !(t.references_in.contains d.def_name) then
          { t with references_in := t.references_in ++ [d.def_name] }
        else t := rfl

theorem parentAt_getElem? (s : List RimWorldDef) (i j : Nat) :
    (parentAt s i)[j]? = (s[j]?).map (parentApply s[i]?) := by
  unfold parentAt
  split
  · next hi =>
    rw [hi]
    cases s[j]? <;> simp [parentApply]
  · next d hi =>
    rw [hi]
    split
    · next hp =>
      cases s[j]? <;> simp [parentApply_some_eq, hp]
    · next p hp =>
      rw [List.getElem?_map]
      cases s[j]? <;> simp [parentApply_some_eq, hp]

@[simp] theorem parentApply_def_name (od : Option RimWorldDef) (t : RimWorldDef) :
    (parentApply od t).def_name = t.def_name := by
  cases od with
  | none => rfl
  | some d =>
    rw [parentApply_some_eq]
    split
    · rfl
    · split <;> rfl

@[simp] theorem parentApply_parent_name (od : Option RimWorldDef) (t : RimWorldDef) :
    (parentApply od t).parent_name = t.parent_name := by
  cases od with
  | none => rfl
  | some d =>
    rw [parentApply_some_eq]
    split
    · rfl
    · split <;> rfl

@[simp] theorem parentApply_elements (od : Option RimWorldDef) (t : RimWorldDef) :
    (parentApply od t).elements = t.elements := by
  cases od with
  | none => rfl
  | some d =>
    rw [parentApply_some_eq]
    split
    · rfl
    · split <;> rfl

@[simp] theorem parentApply_references_out (od : Option RimWorldDef) (t : RimWorldDef) :
    (parentApply od t).references_out = t.references_out := by
  cases od with
  | none => rfl
  | some d =>
    rw [parentApply_some_eq]
    split
    · rfl
    · split <;> rfl

@[simp] theorem parentApply_code_references (od : Option RimWorldDef) (t : RimWorldDef) :
    (parentApply od t).code_references = t.code_references := by
  cases od with
  | none => rfl
  | some d =>
    rw [parentApply_some_eq]
    split
    · rfl
    · split <;> rfl

theorem parentApply_refin (od : Option RimWorldDef) (t : RimWorldDef) :
    (parentApply od t).references_in = t.references_in ∨
      ∃ d, od = some d ∧ d.parent_name = some t.def_name ∧
        d.def_name ∉ t.references_in ∧
        (parentApply od t).references_in = t.references_in ++ [d.def_name] := by
  cases od with
  | none => exact Or.inl rfl
  | some d =>
    rw [parentApply_some_eq]
    split
    · exact Or.inl rfl
    · next p hp =>
      by_cases hname : t.def_name = p
      · by_cases hmem : d.def_name ∈ t.references_in
        · rw [if_neg (by simp [hmem])]
          exact Or.inl rfl
        · rw [if_pos (by simp [hname, hmem])]
          exact Or.inr ⟨d, rfl, by rw [hp, hname], hmem, rfl⟩
      · rw [if_neg (by simp [hname])]
        exact Or.inl rfl

theorem parentApply_append (d : RimWorldDef) (t : RimWorldDef)
    (hp : d.parent_name = some t.def_name) (hmem : d.def_name ∉ t.references_in) :
    (parentApply (some d) t).references_in = t.references_in ++ [d.def_name] := by
  rw [parentApply_some_eq]
  split
  · next h => rw [h] at hp; cases hp
  · next p h =>
    rw [h] at hp
    obtain rfl : p = t.def_name := Option.some_inj.mp hp
    rw [if_pos (by simp [hmem])]

theorem parentApply_skip_of_mem (d : RimWorldDef) (t : RimWorldDef)
    (hmem : d.def_name ∈ t.references_in) :
    (parentApply (some d) t).references_in = t.references_in := by
  rw [parentApply_some_eq]
  split
  · rfl
  · rw [if_neg (by simp [hmem])]

/-! ### Characterization of one reference-pass iteration -/

theorem applyRefs_eq (src : String) (refs : List String) (t : RimWorldDef) :
    List.foldl (fun t r => appendTo src r t) t refs = applyRefs src refs t := rfl

theorem foldl_map_length (g : β → α → α) (refs : List β) (s : List α) :
    (refs.foldl (fun st r => st.map (g r)) s).length = s.length := by
  induction refs generalizing s with
  | nil => rfl
  | cons r rest ih => simp only [List.foldl_cons]; rw [ih, List.length_map]

theorem pass2At_none (names : List String) (s : List RimWorldDef) (i : Nat)
    (hi : s[i]? = none) : pass2At names s i = s := by
  unfold pass2At; rw [hi]

theorem pass2At_some_getElem? (names : List String) (s : List RimWorldDef) (i j : Nat)
    (d : RimWorldDef) (hi : s[i]? = some d) :
    (pass2At names s i)[j]? = (s[j]?).map (fun t =>
      applyRefs d.def_name (validRefs names d)
        (if i = j then
          { t with references_out := validRefs names d,
                   code_references := (extract_references d.elements).2 }
         else t)) := by
  unfold pass2At
  rw [hi]
  dsimp only
  rw [foldl_map_getElem?, getElem?_modifyIdx]
  simp only [applyRefs_eq]
  by_cases hij : i = j
  · simp only [if_pos hij]
    cases s[j]? <;> rfl
  · simp only [if_neg hij]

theorem pass2At_length (names : List String) (s : List RimWorldDef) (i : Nat) :
    (pass2At names s i).length = s.length := by
  unfold pass2At
  split
  · rfl
  · rw [foldl_map_length, length_modifyIdx]

theorem parentAt_length (s : List RimWorldDef) (i : Nat) :
    (parentAt s i).length = s.length := by
  unfold parentAt
  split
  · rfl
  · split
    · rfl
    · rw [List.length_map]

/-- The fields of a record that the resolver never changes and that its
decisions depend on. -/
def coreOf (t : RimWorldDef) : String × Option String × List DefElement :=
  (t.def_name, t.parent_name, t.elements)

theorem coreOf_eq_iff (a b : RimWorldDef) :
    coreOf a = coreOf b ↔
      a.def_name = b.def_name ∧ a.parent_name = b.parent_name ∧ a.elements = b.elements := by
  unfold coreOf
  simp [Prod.ext_iff]

/-- `validRefs` only looks at the core fields. -/
theorem validRefs_congr (names : List String) (a b : RimWorldDef)
    (h : coreOf a = coreOf b) : validRefs names a = validRefs names b := by
  obtain ⟨h1, _, h3⟩ := (coreOf_eq_iff a b).mp h
  unfold validRefs
  rw [h1, h3]

theorem applyRefs_coreOf (src : String) (refs : List String) (t : RimWorldDef) :
    coreOf (applyRefs src refs t) = coreOf t := by
  unfold coreOf
  rw [applyRefs_def_name, applyRefs_parent_name, applyRefs_elements]

theorem pass2At_coreOf (names : List String) (s : List RimWorldDef) (i j : Nat) :
    ((pass2At names s i)[j]?).map coreOf = (s[j]?).map coreOf := by
  cases hi : s[i]? with
  | none => rw [pass2At_none names s i hi]
  | some d =>
    rw [pass2At_some_getElem? names s i j d hi]
    cases s[j]? with
    | none => rfl
    | some t =>
      simp only [Option.map_some', applyRefs_coreOf]
      split
      · unfold coreOf; rfl
      · rfl

theorem parentAt_coreOf (s : List RimWorldDef) (i j : Nat) :
    ((parentAt s i)[j]?).map coreOf = (s[j]?).map coreOf := by
  rw [parentAt_getElem?]
  cases s[j]? with
  | none => rfl
  | some t =>
    simp only [Option.map_some']
    unfold coreOf
    rw [parentApply_def_name, parentApply_parent_name, parentApply_elements]

theorem parentAt_references_out (s : List RimWorldDef) (i j : Nat) :
    ((parentAt s i)[j]?).map RimWorldDef.references_out =
      (s[j]?).map RimWorldDef.references_out := by
  rw [parentAt_getElem?]
  cases s[j]? with
  | none => rfl
  | some t => simp only [Option.map_some', parentApply_references_out]

theorem pass2At_references_out_ne (names : List String) (s : List RimWorldDef) (i j : Nat)
    (hij : i ≠ j) :
    ((pass2At names s i)[j]?).map RimWorldDef.references_out =
      (s[j]?).map RimWorldDef.references_out := by
  cases hi : s[i]? with
  | none => rw [pass2At_none names s i hi]
  | some d =>
    rw [pass2At_some_getElem? names s i j d hi]
    cases s[j]? with
    | none => rfl
    | some t =>
      simp only [Option.map_some', if_neg hij, applyRefs_references_out]

theorem pass2At_references_out_self (names : List String) (s : List RimWorldDef) (i : Nat)
    (d : RimWorldDef) (hi : s[i]? = some d) :
    ∃ t', (pass2At names s i)[i]? = some t' ∧ t'.references_out = validRefs names d := by
  rw [pass2At_some_getElem? names s i i d hi, hi]
  exact ⟨_, rfl, by rw [applyRefs_references_out, if_pos rfl]⟩

theorem pass2At_references_in (names : List String) (s : List RimWorldDef) (i j : Nat)
    (t : RimWorldDef) (hj : s[j]? = some t) :
    ∃ t' u, (pass2At names s i)[j]? = some t' ∧
      t'.references_in = t.references_in ++ u ∧
      (∀ x ∈ u, ∃ d, s[i]? = some d ∧ x = d.def_name ∧ t.def_name ∈ validRefs names d) ∧
      (∀ d, s[i]? = some d → t.def_name ∈ validRefs names d → d.def_name ∈ u) := by
  cases hi : s[i]? with
  | none =>
    rw [pass2At_none names s i hi, hj]
    exact ⟨t, [], rfl, by simp, by simp, by simp⟩
  | some d =>
    rw [pass2At_some_getElem? names s i j d hi, hj]
    set t0 := if i = j then
      { t with references_out := validRefs names d,
               code_references := (extract_references d.elements).2 }
      else t with ht0
    have hrin : t0.references_in = t.references_in := by
      rw [ht0]; split <;> rfl
    have hnm : t0.def_name = t.def_name := by
      rw [ht0]; split <;> rfl
    obtain ⟨u, hu, hall, hmem⟩ := applyRefs_references_in d.def_name (validRefs names d) t0
    refine ⟨_, u, rfl, by rw [hu, hrin], ?_, ?_⟩
    · intro x hx
      refine ⟨d, rfl, hall x hx, ?_⟩
      have : d.def_name ∈ u := by rw [← hall x hx]; exact hx
      rw [← hnm]
      exact hmem.mp this
    · intro d' hd' hv
      obtain rfl : d = d' := Option.some_inj.mp hd'
      exact hmem.mpr (by rw [hnm]; exact hv)

/-! ### The two global passes as folds over index lists -/

/-- The second pass of `build_reference_mappings` over a list of indices. -/
def pass2Fold (names : List String) (L : List Nat) (s : List RimWorldDef) : List RimWorldDef :=
  L.foldl (pass2At names) s

/-- The parent pass of `build_reference_mappings` over a list of indices. -/
def parentFold (L : List Nat) (s : List RimWorldDef) : List RimWorldDef :=
  L.foldl parentAt s

theorem build_reference_mappings_eq (defs : List RimWorldDef) :
    build_reference_mappings defs =
      parentFold
        (List.range (pass2Fold (defs.map RimWorldDef.def_name) (List.range defs.length) defs).length)
        (pass2Fold (defs.map RimWorldDef.def_name) (List.range defs.length) defs) := rfl

theorem pass2Fold_nil (names : List String) (s : List RimWorldDef) :
    pass2Fold names [] s = s := rfl

theorem pass2Fold_cons (names : List String) (i : Nat) (L : List Nat) (s : List RimWorldDef) :
    pass2Fold names (i :: L) s = pass2Fold names L (pass2At names s i) := rfl

theorem parentFold_nil (s : List RimWorldDef) : parentFold [] s = s := rfl

theorem parentFold_cons (i : Nat) (L : List Nat) (s : List RimWorldDef) :
    parentFold (i :: L) s = parentFold L (parentAt s i) := rfl

theorem pass2Fold_length (names : List String) (L : List Nat) (s : List RimWorldDef) :
    (pass2Fold names L s).length = s.length := by
  induction L generalizing s with
  | nil => rfl
  | cons i L ih => rw [pass2Fold_cons, ih, pass2At_length]

theorem parentFold_length (L : List Nat) (s : List RimWorldDef) :
    (parentFold L s).length = s.length := by
  induction L generalizing s with
  | nil => rfl
  | cons i L ih => rw [parentFold_cons, ih, parentAt_length]

theorem pass2Fold_coreOf (names : List String) (L : List Nat) (s : List RimWorldDef) (j : Nat) :
    ((pass2Fold names L s)[j]?).map coreOf = (s[j]?).map coreOf := by
  induction L generalizing s with
  | nil => rfl
  | cons i L ih => rw [pass2Fold_cons, ih, pass2At_coreOf]

theorem parentFold_coreOf (L : List Nat) (s : List RimWorldDef) (j : Nat) :
    ((parentFold L s)[j]?).map coreOf = (s[j]?).map coreOf := by
  induction L generalizing s with
  | nil => rfl
  | cons i L ih => rw [parentFold_cons, ih, parentAt_coreOf]

theorem parentFold_references_out (L : List Nat) (s : List RimWorldDef) (j : Nat) :
    ((parentFold L s)[j]?).map RimWorldDef.references_out =
      (s[j]?).map RimWorldDef.references_out := by
  induction L generalizing s with
  | nil => rfl
  | cons i L ih => rw [parentFold_cons, ih, parentAt_references_out]

theorem pass2Fold_references_out_notin (names : List String) (L : List Nat)
    (s : List RimWorldDef) (j : Nat) (hj : j ∉ L) :
    ((pass2Fold names L s)[j]?).map RimWorldDef.references_out =
      (s[j]?).map RimWorldDef.references_out := by
  induction L generalizing s with
  | nil => rfl
  | cons i L ih =>
    rw [pass2Fold_cons, ih (pass2At names s i) (fun h => hj (List.mem_cons_of_mem i h)),
      pass2At_references_out_ne names s i j (fun h => hj (h ▸ List.mem_cons_self i L))]

theorem pass2Fold_references_out_mem (names : List String) (L : List Nat)
    (s : List RimWorldDef) (j : Nat) (t : RimWorldDef) (hj : s[j]? = some t) (hL : j ∈ L) :
    ∃ t', (pass2Fold names L s)[j]? = some t' ∧ t'.references_out = validRefs names t := by
  induction L generalizing s t with
  | nil => cases hL
  | cons i L ih =>
    rw [pass2Fold_cons]
    by_cases hij : i = j
    · subst hij
      obtain ⟨t1, ht1, hout⟩ := pass2At_references_out_self names s i t hj
      have hc := pass2At_coreOf names s i i
      rw [ht1, hj] at hc
      have hcc : coreOf t1 = coreOf t := by simpa using hc
      by_cases hjL : i ∈ L
      · obtain ⟨t', ht', hout'⟩ := ih (pass2At names s i) t1 ht1 hjL
        refine ⟨t', ht', ?_⟩
        rw [hout']
        exact validRefs_congr names t1 t hcc
      · have hpres := pass2Fold_references_out_notin names L (pass2At names s i) i hjL
        rw [ht1] at hpres
        cases hf : (pass2Fold names L (pass2At names s i))[i]? with
        | none => rw [hf] at hpres; simp at hpres
        | some t' =>
          rw [hf] at hpres
          refine ⟨t', rfl, ?_⟩
          have : t'.references_out = t1.references_out := by simpa using hpres
          rw [this, hout]
    · have hjL : j ∈ L := (List.mem_cons.mp hL).resolve_left (fun h => hij h.symm)
      have hc := pass2At_coreOf names s i j
      rw [hj] at hc
      cases h1 : (pass2At names s i)[j]? with
      | none => rw [h1] at hc; simp at hc
      | some t1 =>
        rw [h1] at hc
        have hcc : coreOf t1 = coreOf t := by simpa using hc
        obtain ⟨t', ht', hout⟩ := ih (pass2At names s i) t1 h1 hjL
        exact ⟨t', ht', by rw [hout]; exact validRefs_congr names t1 t hcc⟩

theorem pass2Fold_refin_mono (names : List String) (L : List Nat) (s : List RimWorldDef)
    (j : Nat) (t : RimWorldDef) (x : String) (hj : s[j]? = some t)
    (hx : x ∈ t.references_in) :
    ∃ t', (pass2Fold names L s)[j]? = some t' ∧ x ∈ t'.references_in := by
  induction L generalizing s t with
  | nil => exact ⟨t, hj, hx⟩
  | cons i L ih =>
    rw [pass2Fold_cons]
    obtain ⟨t1, u, h1, hu, _, _⟩ := pass2At_references_in names s i j t hj
    exact ih (pass2At names s i) t1 h1 (by rw [hu]; exact List.mem_append_left _ hx)

theorem parentAt_refin_mono (s : List RimWorldDef) (i j : Nat) (t : RimWorldDef) (x : String)
    (hj : s[j]? = some t) (hx : x ∈ t.references_in) :
    ∃ t', (parentAt s i)[j]? = some t' ∧ x ∈ t'.references_in := by
  refine ⟨parentApply s[i]? t, by rw [parentAt_getElem?, hj]; rfl, ?_⟩
  rcases parentApply_refin s[i]? t with h | ⟨d, _, _, _, h⟩
  · rw [h]; exact hx
  · rw [h]; exact List.mem_append_left _ hx

theorem parentFold_refin_mono (L : List Nat) (s : List RimWorldDef) (j : Nat)
    (t : RimWorldDef) (x : String) (hj : s[j]? = some t) (hx : x ∈ t.references_in) :
    ∃ t', (parentFold L s)[j]? = some t' ∧ x ∈ t'.references_in := by
  induction L generalizing s t with
  | nil => exact ⟨t, hj, hx⟩
  | cons i L ih =>
    rw [parentFold_cons]
    obtain ⟨t1, h1, hx1⟩ := parentAt_refin_mono s i j t x hj hx
    exact ih (parentAt s i) t1 h1 hx1

theorem pass2Fold_refin_complete (names : List String) (L : List Nat) (s : List RimWorldDef)
    (i j : Nat) (d t : RimWorldDef) (hiL : i ∈ L) (hi : s[i]? = some d)
    (hj : s[j]? = some t) (hv : t.def_name ∈ validRefs names d) :
    ∃ t', (pass2Fold names L s)[j]? = some t' ∧ d.def_name ∈ t'.references_in := by
  induction L generalizing s d t with
  | nil => cases hiL
  | cons k L ih =>
    rw [pass2Fold_cons]
    by_cases hki : k = i
    · subst hki
      obtain ⟨t1, u, h1, hu, _, hcomp⟩ := pass2At_references_in names s k j t hj
      have hmem : d.def_name ∈ t1.references_in := by
        rw [hu]; exact List.mem_append_right _ (hcomp d hi hv)
      exact pass2Fold_refin_mono names L (pass2At names s k) j t1 d.def_name h1 hmem
    · have hiL' : i ∈ L := (List.mem_cons.mp hiL).resolve_left (fun h => hki h.symm)
      have hci := pass2At_coreOf names s k i
      rw [hi] at hci
      cases h1i : (pass2At names s k)[i]? with
      | none => rw [h1i] at hci; simp at hci
      | some d1 =>
        rw [h1i] at hci
        have hc1 : coreOf d1 = coreOf d := by simpa using hci
        have hcj := pass2At_coreOf names s k j
        rw [hj] at hcj
        cases h1j : (pass2At names s k)[j]? with
        | none => rw [h1j] at hcj; simp at hcj
        | some t1 =>
          rw [h1j] at hcj
          have hc2 : coreOf t1 = coreOf t := by simpa using hcj
          have hv' : t1.def_name ∈ validRefs names d1 := by
            rw [validRefs_congr names d1 d hc1, ((coreOf_eq_iff t1 t).mp hc2).1]
            exact hv
          obtain ⟨t', ht', hmem⟩ := ih (pass2At names s k) d1 t1 hiL' h1i h1j hv'
          exact ⟨t', ht', by rwa [((coreOf_eq_iff d1 d).mp hc1).1] at hmem⟩

theorem pass2Fold_refin_sound (names : List String) (L : List Nat) (s : List RimWorldDef)
    (j : Nat) (t : RimWorldDef) (hj : s[j]? = some t) :
    ∀ t', (pass2Fold names L s)[j]? = some t' → ∀ x ∈ t'.references_in,
      x ∈ t.references_in ∨
        ∃ i ∈ L, ∃ d, s[i]? = some d ∧ x = d.def_name ∧
          t.def_name ∈ validRefs names d := by
  induction L generalizing s t with
  | nil =>
    intro t' h x hx
    rw [pass2Fold_nil, hj] at h
    obtain rfl : t = t' := Option.some_inj.mp h
    exact Or.inl hx
  | cons k L ih =>
    intro t' h x hx
    rw [pass2Fold_cons] at h
    obtain ⟨t1, u, h1, hu, hsound, _⟩ := pass2At_references_in names s k j t hj
    rcases ih (pass2At names s k) t1 h1 t' h x hx with hmem | ⟨i, hiL, d1, hid, hxd, hv⟩
    · rw [hu] at hmem
      rcases List.mem_append.mp hmem with hmem' | hmemu
      · exact Or.inl hmem'
      · obtain ⟨d, hkd, hxd, hv⟩ := hsound x hmemu
        exact Or.inr ⟨k, List.mem_cons_self k L, d, hkd, hxd, hv⟩
    · have hci := pass2At_coreOf names s k i
      rw [hid] at hci
      cases h0i : s[i]? with
      | none => rw [h0i] at hci; simp at hci
      | some d0 =>
        rw [h0i] at hci
        have hc : coreOf d1 = coreOf d0 := by simpa using hci
        have hcj := pass2At_coreOf names s k j
        rw [h1, hj] at hcj
        have ht1t : coreOf t1 = coreOf t := by simpa using hcj
        refine Or.inr ⟨i, List.mem_cons_of_mem k hiL, d0, h0i, ?_, ?_⟩
        · rw [hxd, ((coreOf_eq_iff d1 d0).mp hc).1]
        · rw [← validRefs_congr names d1 d0 hc, ← ((coreOf_eq_iff t1 t).mp ht1t).1]
          exact hv

/-! ### Counting lemmas for the parent pass -/

/-- Record `i` declares `ParentName = p` and has name `c`. -/
def isParentChildAt (s : List RimWorldDef) (p c : String) (i : Nat) : Bool :=
  match s[i]? with
  | some d => d.parent_name == some p && d.def_name == c
  | none => false

/-- Some index in `L` is a child of `p` named `c`. -/
def hasParentChild (s : List RimWorldDef) (L : List Nat) (p c : String) : Bool :=
  L.any (isParentChildAt s p c)

theorem isParentChildAt_iff (s : List RimWorldDef) (p c : String) (i : Nat) :
    isParentChildAt s p c i = true ↔
      ∃ d, s[i]? = some d ∧ d.parent_name = some p ∧ d.def_name = c := by
  unfold isParentChildAt
  cases hd : s[i]? with
  | none => simp
  | some d => simp

theorem hasParentChild_nil (s : List RimWorldDef) (p c : String) :
    hasParentChild s [] p c = false := rfl

theorem hasParentChild_cons (s : List RimWorldDef) (i : Nat) (L : List Nat) (p c : String) :
    hasParentChild s (i :: L) p c = (isParentChildAt s p c i || hasParentChild s L p c) := by
  unfold hasParentChild
  rw [List.any_cons]

theorem hasParentChild_iff (s : List RimWorldDef) (L : List Nat) (p c : String) :
    hasParentChild s L p c = true ↔
      ∃ i ∈ L, ∃ d, s[i]? = some d ∧ d.parent_name = some p ∧ d.def_name = c := by
  unfold hasParentChild
  rw [List.any_eq_true]
  constructor
  · rintro ⟨i, hiL, hpred⟩
    exact ⟨i, hiL, (isParentChildAt_iff s p c i).mp hpred⟩
  · rintro ⟨i, hiL, hd⟩
    exact ⟨i, hiL, (isParentChildAt_iff s p c i).mpr hd⟩

theorem isParentChildAt_congr (s1 s2 : List RimWorldDef) (p c : String) (i : Nat)
    (h : (s1[i]?).map coreOf = (s2[i]?).map coreOf) :
    isParentChildAt s1 p c i = isParentChildAt s2 p c i := by
  unfold isParentChildAt
  cases h1 : s1[i]? with
  | none =>
    cases h2 : s2[i]? with
    | none => rfl
    | some d2 => rw [h1, h2] at h; simp at h
  | some d1 =>
    cases h2 : s2[i]? with
    | none => rw [h1, h2] at h; simp at h
    | some d2 =>
      rw [h1, h2] at h
      have hc : coreOf d1 = coreOf d2 := by simpa using h
      obtain ⟨hn, hp, _⟩ := (coreOf_eq_iff d1 d2).mp hc
      simp only [hn, hp]

theorem hasParentChild_congr (s1 s2 : List RimWorldDef) (L : List Nat) (p c : String)
    (h : ∀ k : Nat, (s1[k]?).map coreOf = (s2[k]?).map coreOf) :
    hasParentChild s1 L p c = hasParentChild s2 L p c := by
  induction L with
  | nil => rfl
  | cons i L ih =>
    rw [hasParentChild_cons, hasParentChild_cons, ih,
      isParentChildAt_congr s1 s2 p c i (h i)]

theorem parentAt_count_pres (s : List RimWorldDef) (i j : Nat) (t : RimWorldDef) (c : String)
    (hj : s[j]? = some t) (hc : c ∈ t.references_in) :
    ∃ t', (parentAt s i)[j]? = some t' ∧
      t'.references_in.count c = t.references_in.count c ∧ c ∈ t'.references_in := by
  refine ⟨parentApply s[i]? t, by rw [parentAt_getElem?, hj]; rfl, ?_⟩
  rcases parentApply_refin s[i]? t with h | ⟨d, _, _, hnm, h⟩
  · rw [h]; exact ⟨rfl, hc⟩
  · rw [h]
    have hne : d.def_name ≠ c := fun hdc => hnm (hdc ▸ hc)
    refine ⟨?_, List.mem_append_left _ hc⟩
    have h0 : List.count c [d.def_name] = 0 := by
      rw [List.count_eq_zero]
      simp only [List.mem_singleton]
      exact fun h => hne h.symm
    rw [List.count_append, h0, Nat.add_zero]

theorem parentFold_count_pres (L : List Nat) (s : List RimWorldDef) (j : Nat)
    (t : RimWorldDef) (c : String) (hj : s[j]? = some t) (hc : c ∈ t.references_in) :
    ∃ t', (parentFold L s)[j]? = some t' ∧
      t'.references_in.count c = t.references_in.count c ∧ c ∈ t'.references_in := by
  induction L generalizing s t with
  | nil => exact ⟨t, hj, rfl, hc⟩
  | cons i L ih =>
    rw [parentFold_cons]
    obtain ⟨t1, h1, hcnt, hc1⟩ := parentAt_count_pres s i j t c hj hc
    obtain ⟨t', ht', hcnt', hc'⟩ := ih (parentAt s i) t1 h1 hc1
    exact ⟨t', ht', by rw [hcnt', hcnt], hc'⟩

theorem parentFold_count (L : List Nat) (s : List RimWorldDef) (j : Nat) (t : RimWorldDef)
    (c : String) (hj : s[j]? = some t) (hc : c ∉ t.references_in) :
    ∃ t', (parentFold L s)[j]? = some t' ∧
      t'.references_in.count c =
        (if hasParentChild s L t.def_name c then 1 else 0) := by
  induction L generalizing s t with
  | nil =>
    refine ⟨t, hj, ?_⟩
    rw [List.count_eq_zero.mpr hc, hasParentChild_nil, if_neg (by simp)]
  | cons i L ih =>
    rw [parentFold_cons]
    have hstep : (parentAt s i)[j]? = some (parentApply s[i]? t) := by
      rw [parentAt_getElem?, hj]; rfl
    by_cases hcond : ∃ d, s[i]? = some d ∧ d.parent_name = some t.def_name ∧ d.def_name = c
    · obtain ⟨d, hd, hp, hdc⟩ := hcond
      have happ : (parentApply s[i]? t).references_in = t.references_in ++ [d.def_name] := by
        rw [hd]
        exact parentApply_append d t hp (fun h => hc (hdc ▸ h))
      have hcmem : c ∈ (parentApply s[i]? t).references_in := by
        rw [happ, hdc]
        exact List.mem_append_right _ (List.mem_singleton_self c)
      obtain ⟨t', ht', hcnt', _⟩ :=
        parentFold_count_pres L (parentAt s i) j (parentApply s[i]? t) c hstep hcmem
      refine ⟨t', ht', ?_⟩
      have hcnt : (parentApply s[i]? t).references_in.count c = 1 := by
        rw [happ, List.count_append, List.count_eq_zero.mpr hc, hdc]
        simp
      rw [hcnt', hcnt,
        if_pos ((hasParentChild_iff s (i :: L) t.def_name c).mpr
          ⟨i, List.mem_cons_self i L, d, hd, hp, hdc⟩)]
    · have hnc : c ∉ (parentApply s[i]? t).references_in := by
        rcases parentApply_refin s[i]? t with h | ⟨d, hod, hp, _, h⟩
        · rw [h]; exact hc
        · rw [h]
          intro hmem
          rcases List.mem_append.mp hmem with h' | h'
          · exact hc h'
          · exact hcond ⟨d, hod, hp, (List.mem_singleton.mp h').symm⟩
      obtain ⟨t', ht', hcnt⟩ := ih (parentAt s i) (parentApply s[i]? t) hstep hnc
      refine ⟨t', ht', ?_⟩
      rw [hcnt, parentApply_def_name,
        hasParentChild_congr (parentAt s i) s L t.def_name c (fun k => parentAt_coreOf s i k),
        hasParentChild_cons]
      have hfalse : isParentChildAt s t.def_name c i = false := by
        rw [← Bool.not_eq_true, isParentChildAt_iff]
        exact hcond
      rw [hfalse, Bool.false_or]

theorem parentAt_refin_mem (s : List RimWorldDef) (i j : Nat) (d t : RimWorldDef)
    (hi : s[i]? = some d) (hp : d.parent_name = some t.def_name) (hj : s[j]? = some t) :
    ∃ t', (parentAt s i)[j]? = some t' ∧ d.def_name ∈ t'.references_in := by
  refine ⟨parentApply s[i]? t, by rw [parentAt_getElem?, hj]; rfl, ?_⟩
  rw [hi]
  by_cases hmem : d.def_name ∈ t.references_in
  · rw [parentApply_skip_of_mem d t hmem]; exact hmem
  · rw [parentApply_append d t hp hmem]
    exact List.mem_append_right _ (List.mem_singleton_self _)

theorem parentFold_refin_mem (L : List Nat) (s : List RimWorldDef) (i j : Nat)
    (d t : RimWorldDef) (hiL : i ∈ L) (hi : s[i]? = some d)
    (hp : d.parent_name = some t.def_name) (hj : s[j]? = some t) :
    ∃ t', (parentFold L s)[j]? = some t' ∧ d.def_name ∈ t'.references_in := by
  induction L generalizing s d t with
  | nil => cases hiL
  | cons k L ih =>
    rw [parentFold_cons]
    by_cases hki : k = i
    · subst hki
      obtain ⟨t1, h1, hmem⟩ := parentAt_refin_mem s k j d t hi hp hj
      exact parentFold_refin_mono L (parentAt s k) j t1 d.def_name h1 hmem
    · have hiL' : i ∈ L := (List.mem_cons.mp hiL).resolve_left (fun h => hki h.symm)
      have hci := parentAt_coreOf s k i
      rw [hi] at hci
      cases h1i : (parentAt s k)[i]? with
      | none => rw [h1i] at hci; simp at hci
      | some d1 =>
        rw [h1i] at hci
        have hc1 : coreOf d1 = coreOf d := by simpa using hci
        have hcj := parentAt_coreOf s k j
        rw [hj] at hcj
        cases h1j : (parentAt s k)[j]? with
        | none => rw [h1j] at hcj; simp at hcj
        | some t1 =>
          rw [h1j] at hcj
          have hc2 : coreOf t1 = coreOf t := by simpa using hcj
          obtain ⟨hn1, hpn1, _⟩ := (coreOf_eq_iff d1 d).mp hc1
          obtain ⟨hn2, _, _⟩ := (coreOf_eq_iff t1 t).mp hc2
          have hp' : d1.parent_name = some t1.def_name := by rw [hpn1, hn2, hp]
          obtain ⟨t', ht', hmem⟩ := ih (parentAt s k) d1 t1 hiL' h1i hp' h1j
          exact ⟨t', ht', by rwa [hn1] at hmem⟩

/-! ### Top-level facts about `build_reference_mappings` -/

theorem brm_coreOf (defs : List RimWorldDef) (j : Nat) :
    ((build_reference_mappings defs)[j]?).map coreOf = (defs[j]?).map coreOf := by
  rw [build_reference_mappings_eq, parentFold_coreOf, pass2Fold_coreOf]

theorem brm_core_exists (defs : List RimWorldDef) (j : Nat) (A : RimWorldDef)
    (hf : (build_reference_mappings defs)[j]? = some A) :
    ∃ R, defs[j]? = some R ∧ coreOf R = coreOf A := by
  have h := brm_coreOf defs j
  rw [hf] at h
  cases hd : defs[j]? with
  | none => rw [hd] at h; simp at h
  | some R =>
    rw [hd] at h
    exact ⟨R, rfl, by simpa using h.symm⟩

theorem brm_references_out (defs : List RimWorldDef) (j : Nat) (R : RimWorldDef)
    (hj : defs[j]? = some R) :
    ∃ Rf, (build_reference_mappings defs)[j]? = some Rf ∧
      Rf.references_out = validRefs (defs.map RimWorldDef.def_name) R ∧
      coreOf Rf = coreOf R := by
  have hjL : j ∈ List.range defs.length := List.mem_range.mpr (lt_of_getElem?_some hj)
  obtain ⟨t1, h1, hout⟩ := pass2Fold_references_out_mem (defs.map RimWorldDef.def_name)
    (List.range defs.length) defs j R hj hjL
  rw [build_reference_mappings_eq]
  have hpres := parentFold_references_out
    (List.range (pass2Fold (defs.map RimWorldDef.def_name) (List.range defs.length) defs).length)
    (pass2Fold (defs.map RimWorldDef.def_name) (List.range defs.length) defs) j
  rw [h1] at hpres
  cases hf : (parentFold
      (List.range (pass2Fold (defs.map RimWorldDef.def_name) (List.range defs.length) defs).length)
      (pass2Fold (defs.map RimWorldDef.def_name) (List.range defs.length) defs))[j]? with
  | none => rw [hf] at hpres; simp at hpres
  | some Rf =>
    rw [hf] at hpres
    have houtf : Rf.references_out = t1.references_out := by simpa using hpres
    have hc1 := parentFold_coreOf
      (List.range (pass2Fold (defs.map RimWorldDef.def_name) (List.range defs.length) defs).length)
      (pass2Fold (defs.map RimWorldDef.def_name) (List.range defs.length) defs) j
    rw [hf, h1] at hc1
    have hc2 := pass2Fold_coreOf (defs.map RimWorldDef.def_name) (List.range defs.length) defs j
    rw [h1, hj] at hc2
    refine ⟨Rf, rfl, by rw [houtf, hout], ?_⟩
    have e1 : coreOf Rf = coreOf t1 := by simpa using hc1
    have e2 : coreOf t1 = coreOf R := by simpa using hc2
    rw [e1, e2]

theorem brm_refin_of_valid (defs : List RimWorldDef) (i j : Nat) (R T : RimWorldDef)
    (hi : defs[i]? = some R) (hj : defs[j]? = some T)
    (hv : T.def_name ∈ validRefs (defs.map RimWorldDef.def_name) R) :
    ∃ T', (build_reference_mappings defs)[j]? = some T' ∧
      R.def_name ∈ T'.references_in := by
  have hiL : i ∈ List.range defs.length := List.mem_range.mpr (lt_of_getElem?_some hi)
  obtain ⟨t1, h1, hmem⟩ := pass2Fold_refin_complete (defs.map RimWorldDef.def_name)
    (List.range defs.length) defs i j R T hiL hi hj hv
  rw [build_reference_mappings_eq]
  exact parentFold_refin_mono
    (List.range (pass2Fold (defs.map RimWorldDef.def_name) (List.range defs.length) defs).length)
    (pass2Fold (defs.map RimWorldDef.def_name) (List.range defs.length) defs)
    j t1 R.def_name h1 hmem

theorem brm_parent_refin (defs : List RimWorldDef) (i j : Nat) (R T : RimWorldDef)
    (hi : defs[i]? = some R) (hj : defs[j]? = some T)
    (hp : R.parent_name = some T.def_name) :
    ∃ T', (build_reference_mappings defs)[j]? = some T' ∧
      R.def_name ∈ T'.references_in := by
  rw [build_reference_mappings_eq]
  have hci := pass2Fold_coreOf (defs.map RimWorldDef.def_name) (List.range defs.length) defs i
  rw [hi] at hci
  cases h1i : (pass2Fold (defs.map RimWorldDef.def_name) (List.range defs.length) defs)[i]? with
  | none => rw [h1i] at hci; simp at hci
  | some R1 =>
    rw [h1i] at hci
    have hcR : coreOf R1 = coreOf R := by simpa using hci
    have hcj := pass2Fold_coreOf (defs.map RimWorldDef.def_name) (List.range defs.length) defs j
    rw [hj] at hcj
    cases h1j : (pass2Fold (defs.map RimWorldDef.def_name) (List.range defs.length) defs)[j]? with
    | none => rw [h1j] at hcj; simp at hcj
    | some T1 =>
      rw [h1j] at hcj
      have hcT : coreOf T1 = coreOf T := by simpa using hcj
      obtain ⟨hnR, hpR, _⟩ := (coreOf_eq_iff R1 R).mp hcR
      obtain ⟨hnT, _, _⟩ := (coreOf_eq_iff T1 T).mp hcT
      have hiL : i ∈ List.range
          (pass2Fold (defs.map RimWorldDef.def_name) (List.range defs.length) defs).length := by
        rw [pass2Fold_length]
        exact List.mem_range.mpr (lt_of_getElem?_some hi)
      have hp1 : R1.parent_name = some T1.def_name := by rw [hpR, hnT, hp]
      obtain ⟨T', hT', hmem⟩ := parentFold_refin_mem
        (List.range (pass2Fold (defs.map RimWorldDef.def_name) (List.range defs.length) defs).length)
        (pass2Fold (defs.map RimWorldDef.def_name) (List.range defs.length) defs)
        i j R1 T1 hiL h1i hp1 h1j
      exact ⟨T', hT', by rwa [hnR] at hmem⟩

theorem brm_parent_count (defs : List RimWorldDef) (j : Nat) (T : RimWorldDef) (c : String)
    (hj : defs[j]? = some T)
    (hcnotin : c ∉ T.references_in)
    (hnoref : ∀ k : Nat, ∀ S, defs[k]? = some S → S.def_name = c →
        T.def_name ∉ validRefs (defs.map RimWorldDef.def_name) S) :
    ∃ T', (build_reference_mappings defs)[j]? = some T' ∧
      T'.references_in.count c =
        (if hasParentChild defs (List.range defs.length) T.def_name c then 1 else 0) := by
  rw [build_reference_mappings_eq]
  have hcj := pass2Fold_coreOf (defs.map RimWorldDef.def_name) (List.range defs.length) defs j
  rw [hj] at hcj
  cases h1j : (pass2Fold (defs.map RimWorldDef.def_name) (List.range defs.length) defs)[j]? with
  | none => rw [h1j] at hcj; simp at hcj
  | some T1 =>
    rw [h1j] at hcj
    have hcT : coreOf T1 = coreOf T := by simpa using hcj
    obtain ⟨hnT, _, _⟩ := (coreOf_eq_iff T1 T).mp hcT
    have hnc : c ∉ T1.references_in := by
      intro hmem
      rcases pass2Fold_refin_sound (defs.map RimWorldDef.def_name) (List.range defs.length)
        defs j T hj T1 h1j c hmem with h | ⟨k, _, S, hkS, hcS, hvS⟩
      · exact hcnotin h
      · exact hnoref k S hkS hcS.symm hvS
    obtain ⟨T', hT', hcnt⟩ := parentFold_count
      (List.range (pass2Fold (defs.map RimWorldDef.def_name) (List.range defs.length) defs).length)
      (pass2Fold (defs.map RimWorldDef.def_name) (List.range defs.length) defs)
      j T1 c h1j hnc
    refine ⟨T', hT', ?_⟩
    rw [hcnt, hnT, pass2Fold_length,
      hasParentChild_congr
        (pass2Fold (defs.map RimWorldDef.def_name) (List.range defs.length) defs) defs
        (List.range defs.length) T.def_name c
        (fun k => pass2Fold_coreOf (defs.map RimWorldDef.def_name) (List.range defs.length) defs k)]

/-! ### Claim theorems for the reference graph resolver -/

/-- Claim C1 (multiplicity fan-out): for every record `R` (at index `i`)
and every identity token in `R`'s validated outgoing references, the
resolver appends `R`'s identity to the `referencesIn` of every record
whose identity equals that token — here stated for an arbitrary record
`T` at any index `j` whose name is among `R`'s validated references: in
the resolved run, the record at `j` contains `R`'s name in its
`references_in`. -/
theorem multiplicity_fanout (defs : List RimWorldDef) (i j : Nat) (R T T' : RimWorldDef)
    (hR : defs[i]? = some R) (hT : defs[j]? = some T)
    (hT' : (build_reference_mappings defs)[j]? = some T')
    (hN : T.def_name ∈ validRefs (defs.map RimWorldDef.def_name) R) :
    R.def_name ∈ T'.references_in := by
  obtain ⟨T'', hT'', hmem⟩ := brm_refin_of_valid defs i j R T hR hT hN
  rw [hT'] at hT''
  obtain rfl : T'' = T' := (Option.some_inj.mp hT'').symm
  exact hmem

/-- Claim C2 (bidirectional-graph output guarantee): after the resolver
pass, for any two records `A` and `B` of the run, if `A`'s finalized
`referencesOut` contains `B`'s identity then `B`'s finalized
`referencesIn` contains `A`'s identity. -/
theorem bidirectional_references (defs : List RimWorldDef) (i j : Nat) (A B : RimWorldDef)
    (hA : (build_reference_mappings defs)[i]? = some A)
    (hB : (build_reference_mappings defs)[j]? = some B)
    (h : B.def_name ∈ A.references_out) :
    A.def_name ∈ B.references_in := by
  obtain ⟨R, hiR, hcR⟩ := brm_core_exists defs i A hA
  obtain ⟨T, hjT, hcT⟩ := brm_core_exists defs j B hB
  obtain ⟨Rf, hRf, hout, _⟩ := brm_references_out defs i R hiR
  rw [hA] at hRf
  obtain rfl : Rf = A := Option.some_inj.mp hRf.symm
  have hv : T.def_name ∈ validRefs (defs.map RimWorldDef.def_name) R := by
    rw [((coreOf_eq_iff T B).mp hcT).1, ← hout]
    exact h
  obtain ⟨T', hT', hmem⟩ := brm_refin_of_valid defs i j R T hiR hjT hv
  rw [hB] at hT'
  obtain rfl : T' = B := Option.some_inj.mp hT'.symm
  rwa [((coreOf_eq_iff R Rf).mp hcR).1] at hmem

/-- Claim C4 (inheritance back-edge idempotence): a child record `R`
declaring `ParentName` equal to the name of record `T` contributes its
identity to `T`'s `referencesIn` exactly once — the parent pass appends
only when the identity is not already present — whenever `T` starts with
empty `referencesIn` and no record named `c` contributes a candidate
reference to `T` in the reference pass.  The count is `1` no matter where
the children sit in the record list, i.e. in whichever order the
inheritance edges are processed. -/
theorem inheritance_backedge_idempotent (defs : List RimWorldDef) (i j : Nat)
    (R T T' : RimWorldDef) (c : String)
    (hi : defs[i]? = some R) (hj : defs[j]? = some T)
    (hf : (build_reference_mappings defs)[j]? = some T')
    (hp : R.parent_name = some T.def_name) (hc : R.def_name = c)
    (hinit : T.references_in = [])
    (hnoref : ∀ S ∈ defs, S.def_name = c →
        T.def_name ∉ validRefs (defs.map RimWorldDef.def_name) S) :
    T'.references_in.count c = 1 := by
  obtain ⟨T'', hT'', hcnt⟩ := brm_parent_count defs j T c hj
    (by rw [hinit]; exact List.not_mem_nil c)
    (fun k S hkS hSc => hnoref S (List.getElem?_mem hkS) hSc)
  rw [hf] at hT''
  obtain rfl : T'' = T' := Option.some_inj.mp hT''.symm
  rw [hcnt, if_pos ((hasParentChild_iff defs (List.range defs.length) T.def_name c).mpr
    ⟨i, List.mem_range.mpr (lt_of_getElem?_some hi), R, hi, hp, hc⟩)]

/-- Claim C10 (no self-exclusion in inheritance back-edges): a record
whose `parentIdentity` equals its own identity receives its own identity
in its own `referencesIn` — the parent pass filters only by containment,
not by source-equals-target. -/
theorem self_parent_backedge (defs : List RimWorldDef) (i : Nat) (R R' : RimWorldDef)
    (hi : defs[i]? = some R)
    (hf : (build_reference_mappings defs)[i]? = some R')
    (hp : R.parent_name = some R.def_name) :
    R.def_name ∈ R'.references_in := by
  obtain ⟨T', hT', hmem⟩ := brm_parent_refin defs i i R R hi hi hp
  rw [hf] at hT'
  obtain rfl : T' = R' := Option.some_inj.mp hT'.symm
  exact hmem

/-! ### Concrete runs used as witnesses for the resolver claims -/

/-- A record named `X` with no body. -/
def demoX1 : RimWorldDef :=
  ⟨"X", "ThingDef", none, none, none, false, [], [], none, [], [], []⟩

/-- A second record also named `X`. -/
def demoX2 : RimWorldDef :=
  ⟨"X", "ThingDef", none, none, none, false, [], [], none, [], [], []⟩

/-- A record named `R` whose body mentions element `<X>`. -/
def demoR : RimWorldDef :=
  ⟨"R", "ThingDef", none, none, none, false, [DefElement.mk "X" [] none [] 1], [], none,
    [], [], []⟩

/-- The fan-out scenario: two records share identity `X`, a third
references `X`. -/
def demoFanDefs : List RimWorldDef := [demoX1, demoX2, demoR]

theorem multiplicity_fanout_witness :
    "R" ∈ (((build_reference_mappings demoFanDefs)[0]?).map RimWorldDef.references_in).getD []
    ∧ "R" ∈ (((build_reference_mappings demoFanDefs)[1]?).map RimWorldDef.references_in).getD [] := by
  have h0 : (build_reference_mappings demoFanDefs)[0]? =
      some { demoX1 with references_in := ["R"] } := by rfl
  have h1 : (build_reference_mappings demoFanDefs)[1]? =
      some { demoX2 with references_in := ["R"] } := by rfl
  constructor
  · have hm := multiplicity_fanout demoFanDefs 2 0 demoR demoX1 _ rfl rfl h0 (by decide)
    rw [h0]
    simpa using hm
  · have hm := multiplicity_fanout demoFanDefs 2 1 demoR demoX2 _ rfl rfl h1 (by decide)
    rw [h1]
    simpa using hm

theorem bidirectional_references_witness :
    "R" ∈ (((build_reference_mappings demoFanDefs)[0]?).map RimWorldDef.references_in).getD [] := by
  have h0 : (build_reference_mappings demoFanDefs)[0]? =
      some { demoX1 with references_in := ["R"] } := by rfl
  have h2 : (build_reference_mappings demoFanDefs)[2]? =
      some { demoR with references_out := ["X"] } := by rfl
  have hm := bidirectional_references demoFanDefs 2 0
    { demoR with references_out := ["X"] } { demoX1 with references_in := ["R"] }
    h2 h0 (by decide)
  rw [h0]
  simpa using hm

/-- A parent record named `P`. -/
def demoP : RimWorldDef :=
  ⟨"P", "ThingDef", none, none, none, false, [], [], none, [], [], []⟩

/-- A child record named `A` inheriting from `P`. -/
def demoChildA : RimWorldDef :=
  ⟨"A", "ThingDef", none, none, some "P", false, [], [], none, [], [], []⟩

/-- A child record named `B` inheriting from `P`. -/
def demoChildB : RimWorldDef :=
  ⟨"B", "ThingDef", none, none, some "P", false, [], [], none, [], [], []⟩

/-- Two children of `P`, in one processing order. -/
def demoParDefs1 : List RimWorldDef := [demoP, demoChildA, demoChildB]

/-- The same children of `P`, in the other processing order. -/
def demoParDefs2 : List RimWorldDef := [demoP, demoChildB, demoChildA]

theorem inheritance_backedge_idempotent_witness :
    (((build_reference_mappings demoParDefs1)[0]?).map
        (fun t => t.references_in.count "A")).getD 0 = 1
    ∧ (((build_reference_mappings demoParDefs1)[0]?).map
        (fun t => t.references_in.count "B")).getD 0 = 1
    ∧ (((build_reference_mappings demoParDefs2)[0]?).map
        (fun t => t.references_in.count "A")).getD 0 = 1
    ∧ (((build_reference_mappings demoParDefs2)[0]?).map
        (fun t => t.references_in.count "B")).getD 0 = 1 := by
  have h1 : (build_reference_mappings demoParDefs1)[0]? =
      some { demoP with references_in := ["A", "B"] } := by rfl
  have h2 : (build_reference_mappings demoParDefs2)[0]? =
      some { demoP with references_in := ["B", "A"] } := by rfl
  refine ⟨?_, ?_, ?_, ?_⟩
  · have hm := inheritance_backedge_idempotent demoParDefs1 1 0 demoChildA demoP _ "A"
      rfl rfl h1 rfl rfl rfl (by decide)
    rw [h1]
    simpa using hm
  · have hm := inheritance_backedge_idempotent demoParDefs1 2 0 demoChildB demoP _ "B"
      rfl rfl h1 rfl rfl rfl (by decide)
    rw [h1]
    simpa using hm
  · have hm := inheritance_backedge_idempotent demoParDefs2 2 0 demoChildA demoP _ "A"
      rfl rfl h2 rfl rfl rfl (by decide)
    rw [h2]
    simpa using hm
  · have hm := inheritance_backedge_idempotent demoParDefs2 1 0 demoChildB demoP _ "B"
      rfl rfl h2 rfl rfl rfl (by decide)
    rw [h2]
    simpa using hm

/-- A record that declares itself as its own parent. -/
def demoSelfS : RimWorldDef :=
  ⟨"S", "ThingDef", none, none, some "S", false, [], [], none, [], [], []⟩

theorem self_parent_backedge_witness :
    "S" ∈ (((build_reference_mappings [demoSelfS])[0]?).map RimWorldDef.references_in).getD [] := by
  have h0 : (build_reference_mappings [demoSelfS])[0]? =
      some { demoSelfS with references_in := ["S"] } := by rfl
  have hm := self_parent_backedge [demoSelfS] 0 demoSelfS _ rfl h0 rfl
  rw [h0]
  simpa using hm

/-! ### Sorting and deduplication facts about the extractor output -/

theorem mem_dedupAdj (l : List String) (x : String) : x ∈ dedupAdj l ↔ x ∈ l := by
  induction l with
  | nil => simp [dedupAdj]
  | cons a t ih =>
    cases t with
    | nil => simp [dedupAdj]
    | cons b t2 =>
      rw [dedupAdj]
      by_cases hab : a = b
      · rw [if_pos (by simpa using hab), ih]
        subst hab
        simp [List.mem_cons]
      · rw [if_neg (by simpa using hab)]
        simp [List.mem_cons, ih]

theorem dedupAdj_sublist (l : List String) : List.Sublist (dedupAdj l) l := by
  induction l with
  | nil => simp [dedupAdj]
  | cons a t ih =>
    cases t with
    | nil => simp [dedupAdj]
    | cons b t2 =>
      rw [dedupAdj]
      by_cases hab : a = b
      · rw [if_pos (by simpa using hab)]
        exact ih.cons a
      · rw [if_neg (by simpa using hab)]
        exact ih.cons₂ a

theorem charsLe_total (as bs : List Char) : charsLe as bs = true ∨ charsLe bs as = true := by
  induction as generalizing bs with
  | nil => left; rfl
  | cons a as ih =>
    cases bs with
    | nil => right; rfl
    | cons b bs =>
      rcases lt_trichotomy a b with h | h | h
      · left; simp [charsLe, h]
      · subst h
        rcases ih bs with h' | h'
        · left; simp [charsLe, lt_irrefl, h']
        · right; simp [charsLe, lt_irrefl, h']
      · right; simp [charsLe, h]

theorem charsLe_trans (as bs cs : List Char) (h1 : charsLe as bs = true)
    (h2 : charsLe bs cs = true) : charsLe as cs = true := by
  induction as generalizing bs cs with
  | nil => rfl
  | cons a as ih =>
    cases bs with
    | nil => simp [charsLe] at h1
    | cons b bs =>
      cases cs with
      | nil => simp [charsLe] at h2
      | cons c cs =>
        simp only [charsLe] at h1 h2 ⊢
        rcases lt_trichotomy a b with hab | hab | hab
        · rcases lt_trichotomy b c with hbc | hbc | hbc
          · simp [lt_trans hab hbc]
          · subst hbc; simp [hab]
          · simp [lt_asymm hbc, hbc] at h2
        · subst hab
          rcases lt_trichotomy a c with hac | hac | hac
          · simp [hac]
          · subst hac
            simp only [lt_irrefl, if_false] at h1 h2 ⊢
            exact ih bs cs h1 h2
          · simp [lt_asymm hac, hac] at h2
        · simp [lt_asymm hab, hab] at h1

theorem charsLe_antisymm (as bs : List Char) (h1 : charsLe as bs = true)
    (h2 : charsLe bs as = true) : as = bs := by
  induction as generalizing bs with
  | nil =>
    cases bs with
    | nil => rfl
    | cons b bs => simp [charsLe] at h2
  | cons a as ih =>
    cases bs with
    | nil => simp [charsLe] at h1
    | cons b bs =>
      simp only [charsLe] at h1 h2
      rcases lt_trichotomy a b with hab | hab | hab
      · simp [lt_asymm hab, hab] at h2
      · subst hab
        simp only [lt_irrefl, if_false] at h1 h2
        rw [ih bs h1 h2]
      · simp [lt_asymm hab, hab] at h1

theorem strLe_total (a b : String) : strLe a b = true ∨ strLe b a = true :=
  charsLe_total a.data b.data

theorem strLe_antisymm (a b : String) (h1 : strLe a b = true) (h2 : strLe b a = true) :
    a = b := by
  cases a with | mk da =>
  cases b with | mk db =>
  rw [charsLe_antisymm da db h1 h2]

theorem mem_insertSorted (x : String) (l : List String) (z : String) :
    z ∈ insertSorted x l ↔ z = x ∨ z ∈ l := by
  induction l with
  | nil => simp [insertSorted]
  | cons y t ih =>
    rw [insertSorted]
    by_cases hxy : strLe x y = true
    · rw [if_pos hxy]
      simp [List.mem_cons]
    · rw [if_neg hxy]
      simp only [List.mem_cons, ih]
      tauto

theorem sorted_insertSorted (x : String) (l : List String) (hs : l.Sorted strLeOrd) :
    (insertSorted x l).Sorted strLeOrd := by
  induction l with
  | nil => simp [insertSorted]
  | cons y t ih =>
    rw [insertSorted]
    by_cases hxy : strLe x y = true
    · rw [if_pos hxy]
      rw [List.sorted_cons]
      refine ⟨?_, hs⟩
      intro z hz
      rcases List.mem_cons.mp hz with rfl | hz
      · exact hxy
      · exact charsLe_trans _ _ _ hxy ((List.sorted_cons.mp hs).1 z hz)
    · rw [if_neg hxy]
      have hyx : strLe y x = true := (strLe_total x y).resolve_left hxy
      rw [List.sorted_cons]
      constructor
      · intro z hz
        rcases (mem_insertSorted x t z).mp hz with rfl | hz
        · exact hyx
        · exact (List.sorted_cons.mp hs).1 z hz
      · exact ih (List.sorted_cons.mp hs).2

theorem dedupAdj_sorted (l : List String) (hs : l.Sorted strLeOrd) :
    (dedupAdj l).Sorted strLeOrd :=
  List.Pairwise.sublist (dedupAdj_sublist l) hs

theorem dedupAdj_nodup (l : List String) (hs : l.Sorted strLeOrd) : (dedupAdj l).Nodup := by
  induction l with
  | nil => simp [dedupAdj]
  | cons a t ih =>
    cases t with
    | nil => simp [dedupAdj]
    | cons b t2 =>
      have hs' : (b :: t2).Sorted strLeOrd := hs.of_cons
      rw [dedupAdj]
      by_cases hab : a = b
      · rw [if_pos (by simpa using hab)]
        exact ih hs'
      · rw [if_neg (by simpa using hab)]
        refine List.nodup_cons.mpr ⟨?_, ih hs'⟩
        intro hmem
        have hmem' : a ∈ b :: t2 := (mem_dedupAdj _ _).mp hmem
        have hab_le : strLeOrd a b := (List.sorted_cons.mp hs).1 b (List.mem_cons_self b t2)
        rcases List.mem_cons.mp hmem' with h | h
        · exact hab h
        · exact hab (strLe_antisymm a b hab_le ((List.sorted_cons.mp hs').1 a h))

theorem sortRefs_sorted (l : List String) : (sortRefs l).Sorted strLeOrd := by
  induction l with
  | nil => simp [sortRefs]
  | cons x t ih =>
    rw [sortRefs]
    exact sorted_insertSorted x _ ih

theorem mem_sortRefs (l : List String) (x : String) : x ∈ sortRefs l ↔ x ∈ l := by
  induction l with
  | nil => simp [sortRefs]
  | cons y t ih =>
    rw [sortRefs, mem_insertSorted]
    simp [List.mem_cons, ih]

theorem extract_references_fst_eq (els : List DefElement) :
    (extract_references els).1 = dedupAdj (sortRefs (extract_references_recursive els).1) := rfl

theorem extract_references_snd_eq (els : List DefElement) :
    (extract_references els).2 = dedupAdj (sortRefs (extract_references_recursive els).2) := rfl

theorem extract_references_fst_sorted (els : List DefElement) :
    ((extract_references els).1).Sorted strLeOrd := by
  rw [extract_references_fst_eq]
  exact dedupAdj_sorted _ (sortRefs_sorted _)

theorem extract_references_fst_nodup (els : List DefElement) :
    ((extract_references els).1).Nodup := by
  rw [extract_references_fst_eq]
  exact dedupAdj_nodup _ (sortRefs_sorted _)

theorem extract_references_snd_sorted (els : List DefElement) :
    ((extract_references els).2).Sorted strLeOrd := by
  rw [extract_references_snd_eq]
  exact dedupAdj_sorted _ (sortRefs_sorted _)

theorem extract_references_snd_nodup (els : List DefElement) :
    ((extract_references els).2).Nodup := by
  rw [extract_references_snd_eq]
  exact dedupAdj_nodup _ (sortRefs_sorted _)

theorem mem_extract_references_fst (els : List DefElement) (x : String) :
    x ∈ (extract_references els).1 ↔ x ∈ (extract_references_recursive els).1 := by
  rw [extract_references_fst_eq, mem_dedupAdj, mem_sortRefs]

theorem mem_extract_references_snd (els : List DefElement) (x : String) :
    x ∈ (extract_references els).2 ↔ x ∈ (extract_references_recursive els).2 := by
  rw [extract_references_snd_eq, mem_dedupAdj, mem_sortRefs]

/-- Claim C3 (validity filtering and self-reference exclusion): a record's
finalized `references_out` is exactly the filter of its candidate token
list (the §4.3 extractor output, which is sorted and deduplicated)
keeping the tokens that are some record's identity and differ from the
record's own identity; it is an order-preserving deduplicated subsequence
of the candidate list, and never contains the record's own identity. -/
theorem references_out_exact (defs : List RimWorldDef) (i : Nat) (R Rf : RimWorldDef)
    (hi : defs[i]? = some R)
    (hf : (build_reference_mappings defs)[i]? = some Rf) :
    Rf.references_out =
      (extract_references R.elements).1.filter
        (fun r => defs.any (fun d => d.def_name == r) && r != R.def_name)
    ∧ List.Sublist Rf.references_out (extract_references R.elements).1
    ∧ Rf.references_out.Nodup
    ∧ R.def_name ∉ Rf.references_out := by
  obtain ⟨Rf', hf', hout, _⟩ := brm_references_out defs i R hi
  rw [hf] at hf'
  obtain rfl : Rf = Rf' := Option.some_inj.mp hf'
  have heq : Rf.references_out =
      (extract_references R.elements).1.filter
        (fun r => defs.any (fun d => d.def_name == r) && r != R.def_name) := by
    rw [hout]
    unfold validRefs
    refine List.filter_congr ?_
    intro r _
    have : ((defs.map RimWorldDef.def_name).contains r) =
        (defs.any (fun d => d.def_name == r)) := by
      rw [Bool.eq_iff_iff]
      simp [List.any_eq_true]
    rw [this]
  refine ⟨heq, ?_, ?_, ?_⟩
  · rw [heq]
    exact List.filter_sublist _
  · rw [heq]
    exact (extract_references_fst_nodup R.elements).filter _
  · rw [heq]
    intro hmem
    have := (List.mem_filter.mp hmem).2
    simp at this

/-! ### Membership characterization of the extractor -/

theorem mem_ite_singleton {p : Prop} [Decidable p] (a x : String) :
    (x ∈ if p then [a] else []) ↔ (p ∧ x = a) := by
  split <;> simp_all

mutual

theorem mem_extract_elem_fst (e : DefElement) (s : String) :
    s ∈ (extract_elem e).1 ↔ occursElem (candRule s) e = true := by
  cases e with
  | mk name attrs content children depth =>
    have ih := mem_extract_rec_fst children s
    cases content with
    | none =>
      simp only [extract_elem, occursElem, candRule, List.mem_append, ih,
        List.mem_filterMap, Bool.or_eq_true, Bool.and_eq_true, beq_iff_eq, bne_iff_ne,
        List.any_eq_true, DefElement.name_mk, DefElement.attributes_mk, DefElement.content_mk,
        mem_ite_singleton, ite_some_none_eq_some, List.not_mem_nil]
      aesop
    | some c =>
      simp only [extract_elem, occursElem, candRule, List.mem_append, ih,
        List.mem_filterMap, Bool.or_eq_true, Bool.and_eq_true, beq_iff_eq, bne_iff_ne,
        List.any_eq_true, DefElement.name_mk, DefElement.attributes_mk, DefElement.content_mk,
        mem_ite_singleton, ite_some_none_eq_some, List.not_mem_nil, Option.some.injEq]
      aesop
termination_by sizeOf e

theorem mem_extract_rec_fst (els : List DefElement) (s : String) :
    s ∈ (extract_references_recursive els).1 ↔ occursList (candRule s) els = true := by
  cases els with
  | nil => simp [extract_references_recursive, occursList]
  | cons e es =>
    have ih1 := mem_extract_elem_fst e s
    have ih2 := mem_extract_rec_fst es s
    simp only [extract_references_recursive, occursList, List.mem_append, Bool.or_eq_true]
    rw [← ih1, ← ih2]
termination_by sizeOf els

end

mutual

theorem mem_extract_elem_snd (e : DefElement) (s : String) :
    s ∈ (extract_elem e).2 ↔ occursElem (classRule s) e = true := by
  cases e with
  | mk name attrs content children depth =>
    have ih := mem_extract_rec_snd children s
    cases content with
    | none =>
      simp only [extract_elem, occursElem, classRule, List.mem_append, ih,
        List.mem_filterMap, Bool.or_eq_true, Bool.and_eq_true, beq_iff_eq, bne_iff_ne,
        List.any_eq_true, DefElement.name_mk, DefElement.attributes_mk, DefElement.content_mk,
        mem_ite_singleton, ite_some_none_eq_some, List.not_mem_nil]
    | some c =>
      simp only [extract_elem, occursElem, classRule, List.mem_append, ih,
        List.mem_filterMap, Bool.or_eq_true, Bool.and_eq_true, beq_iff_eq, bne_iff_ne,
        List.any_eq_true, DefElement.name_mk, DefElement.attributes_mk, DefElement.content_mk,
        mem_ite_singleton, ite_some_none_eq_some, List.not_mem_nil, Option.some.injEq]
termination_by sizeOf e

theorem mem_extract_rec_snd (els : List DefElement) (s : String) :
    s ∈ (extract_references_recursive els).2 ↔ occursList (classRule s) els = true := by
  cases els with
  | nil => simp [extract_references_recursive, occursList]
  | cons e es =>
    have ih1 := mem_extract_elem_snd e s
    have ih2 := mem_extract_rec_snd es s
    simp only [extract_references_recursive, occursList, List.mem_append, Bool.or_eq_true]
    rw [← ih1, ← ih2]
termination_by sizeOf els

end

/-- Claim C7 (reference extractor contract): over every element of the
subtree, the extractor emits the element's tag name as a record-identity
candidate iff the tag is neither `defName` nor `li`, its text content iff
present and the tag is not `defName`, each `Class`-keyed attribute value
as an external-symbol candidate and every other attribute value as a
record-identity candidate; both returned sequences are sorted and
deduplicated under literal string equality. -/
theorem extractor_contract (els : List DefElement) :
    (∀ s : String, s ∈ (extract_references els).1 ↔ occursList (candRule s) els = true)
    ∧ (∀ s : String, s ∈ (extract_references els).2 ↔ occursList (classRule s) els = true)
    ∧ ((extract_references els).1).Sorted strLeOrd
    ∧ ((extract_references els).1).Nodup
    ∧ ((extract_references els).2).Sorted strLeOrd
    ∧ ((extract_references els).2).Nodup := by
  refine ⟨?_, ?_, extract_references_fst_sorted els, extract_references_fst_nodup els,
    extract_references_snd_sorted els, extract_references_snd_nodup els⟩
  · intro s
    rw [mem_extract_references_fst]
    exact mem_extract_rec_fst els s
  · intro s
    rw [mem_extract_references_snd]
    exact mem_extract_rec_snd els s

/-! ### Depth numbering of the parser -/

theorem depthOkFrom_eq (d : Nat) (e : DefElement) :
    depthOkFrom d e = ((e.depth == d) && depthOkList (d + 1) e.children) := by
  cases e; rfl

theorem depthOkList_nil (d : Nat) : depthOkList d [] = true := rfl

theorem depthOkList_cons (d : Nat) (e : DefElement) (es : List DefElement) :
    depthOkList d (e :: es) = (depthOkFrom d e && depthOkList d es) := rfl

theorem depthOkList_append (d : Nat) (l1 l2 : List DefElement) :
    depthOkList d (l1 ++ l2) = (depthOkList d l1 && depthOkList d l2) := by
  induction l1 with
  | nil => simp [depthOkList]
  | cons e es ih =>
    rw [List.cons_append, depthOkList_cons, depthOkList_cons, ih, Bool.and_assoc]

/-- The parser stack invariant: with the top of the stack at the head,
the element sitting above `k` other stack entries has depth `k`, and its
children so far are numbered one level deeper. -/
def stackOk : List DefElement → Prop
  | [] => True
  | el :: rest =>
    el.depth = rest.length ∧ depthOkList (rest.length + 1) el.children = true ∧ stackOk rest

theorem parseStep_depthOk (st : ParseState) (ev : XmlEvent)
    (hstack : stackOk st.element_stack)
    (hdefs : ∀ r ∈ st.parsed_defs, depthOkList 1 r.elements = true) :
    stackOk (parseStep st ev).element_stack ∧
      ∀ r ∈ (parseStep st ev).parsed_defs, depthOkList 1 r.elements = true := by
  cases ev with
  | start name attrs =>
    simp only [parseStep]
    split
    · exact ⟨hstack, hdefs⟩
    · split
      · refine ⟨⟨rfl, rfl, hstack⟩, hdefs⟩
      · exact ⟨hstack, hdefs⟩
  | endTag name =>
    simp only [parseStep]
    split
    · exact ⟨hstack, hdefs⟩
    · split
      · -- in_defs, match on the stack
        cases hst : st.element_stack with
        | nil => rw [hst] at hstack ⊢; exact ⟨hstack, hdefs⟩
        | cons element rest =>
          rw [hst] at hstack
          obtain ⟨hdep, hch, hrest⟩ := hstack
          cases rest with
          | nil =>
            refine ⟨trivial, ?_⟩
            intro r hr
            rcases List.mem_append.mp hr with h | h
            · exact hdefs r h
            · have : r = mkRecord element := List.mem_singleton.mp h
              subst this
              simpa using hch
          | cons parent rest2 =>
            obtain ⟨hpdep, hpch, hrest2⟩ := hrest
            refine ⟨⟨?_, ?_, hrest2⟩, hdefs⟩
            · rw [DefElement.depth_pushChild]
              simpa using hpdep
            · rw [DefElement.children_pushChild, depthOkList_append, depthOkList_cons,
                depthOkFrom_eq]
              simp only [Bool.and_eq_true]
              refine ⟨by simpa using hpch, ⟨?_, ?_⟩, rfl⟩
              · simp only [List.length_cons] at hdep
                simp [hdep]
              · simpa using hch
      · exact ⟨hstack, hdefs⟩
  | text raw =>
    simp only [parseStep]
    split
    · cases hst : st.element_stack with
      | nil => rw [hst] at hstack ⊢; exact ⟨hstack, hdefs⟩
      | cons top rest =>
        rw [hst] at hstack
        obtain ⟨hdep, hch, hrest⟩ := hstack
        refine ⟨⟨?_, ?_, hrest⟩, hdefs⟩
        · rw [DefElement.depth_setContent]; exact hdep
        · rw [DefElement.children_setContent]; exact hch
    · exact ⟨hstack, hdefs⟩

theorem parseFold_depthOk (events : List XmlEvent) (st : ParseState)
    (hstack : stackOk st.element_stack)
    (hdefs : ∀ r ∈ st.parsed_defs, depthOkList 1 r.elements = true) :
    ∀ r ∈ (events.foldl parseStep st).parsed_defs, depthOkList 1 r.elements = true := by
  induction events generalizing st with
  | nil => exact hdefs
  | cons ev evs ih =>
    obtain ⟨h1, h2⟩ := parseStep_depthOk st ev hstack hdefs
    exact ih (parseStep st ev) h1 h2

/-- Claim C5, amended (element depth numbering): in every parsed record,
each element that is a direct child of the record root has depth `1` (the
record root itself carries depth `0`), and depth increments by exactly
one per nesting level below that; depth is local to the record, not
global to the file. -/
theorem record_elements_depth (events : List XmlEvent) :
    ∀ r ∈ parse_xml_file events, depthOkList 1 r.elements = true := by
  unfold parse_xml_file
  exact parseFold_depthOk events _ trivial (by intro r hr; cases hr)

/-- A one-record event stream: `<Defs><ThingDef><defName/1></ThingDef></Defs>`
(with `defName` opened and closed, so it becomes a direct child of the
record root). -/
def demoEvents : List XmlEvent :=
  [.start "Defs" [], .start "ThingDef" [], .start "defName" [],
   .endTag "defName", .endTag "ThingDef", .endTag "Defs"]

/-- Counterexample to claim C5 as stated: in the record parsed from
`demoEvents`, the direct child of the record root has depth `1`, not `0`,
so "every direct child has depth 0" fails on this input. -/
theorem record_elements_depth_zero_false :
    ¬ (((parse_xml_file demoEvents).all
        (fun r => r.elements.all (fun e => e.depth == 0))) = true) := by
  decide

theorem record_elements_depth_witness :
    ((parse_xml_file demoEvents).all (fun r => depthOkList 1 r.elements)) = true := by
  rw [List.all_eq_true]
  intro r hr
  exact record_elements_depth demoEvents r hr

/-! ### Profiler claims -/

/-- Claim C6 (identity resolution precedence): a record's identity is the
root element's `Name` attribute when present (regardless of any `defName`
child); otherwise the text content of the first direct child named
`defName` when such a child exists; otherwise the literal `"Unknown"`. -/
theorem identity_resolution_precedence (element : DefElement) :
    (∀ v, getAttr element.attributes "Name" = some v → (mkRecord element).def_name = v)
    ∧ (getAttr element.attributes "Name" = none →
        ∀ cel, element.children.find? (fun c => c.name == "defName") = some cel →
          ∀ c, cel.content = some c → (mkRecord element).def_name = c)
    ∧ (getAttr element.attributes "Name" = none →
        element.children.find? (fun c => c.name == "defName") = none →
        (mkRecord element).def_name = "Unknown") := by
  refine ⟨?_, ?_, ?_⟩
  · intro v hv
    simp only [mkRecord, hv]
  · intro hnone cel hcel c hc
    simp only [mkRecord, hnone, hcel, Option.some_bind, hc]
  · intro hnone hfind
    simp only [mkRecord, hnone, hfind, Option.none_bind]

/-- A root with both a `Name` attribute and a `defName` child. -/
def demoElNameAttr : DefElement :=
  .mk "ThingDef" [("Name", "Foo")] none [.mk "defName" [] (some "Bar") [] 1] 0

/-- A root with no `Name` attribute but a `defName` child. -/
def demoElDefNameChild : DefElement :=
  .mk "ThingDef" [] none [.mk "defName" [] (some "Bar") [] 1] 0

/-- A root with neither a `Name` attribute nor a `defName` child. -/
def demoElBare : DefElement :=
  .mk "ThingDef" [] none [] 0

theorem identity_resolution_precedence_witness :
    (mkRecord demoElNameAttr).def_name = "Foo"
    ∧ (mkRecord demoElDefNameChild).def_name = "Bar"
    ∧ (mkRecord demoElBare).def_name = "Unknown" := by
  refine ⟨?_, ?_, ?_⟩
  · exact (identity_resolution_precedence demoElNameAttr).1 "Foo" (by decide)
  · exact (identity_resolution_precedence demoElDefNameChild).2.1 (by decide)
      (.mk "defName" [] (some "Bar") [] 1) rfl "Bar" rfl
  · exact (identity_resolution_precedence demoElBare).2.2 (by decide) rfl

theorem craftable_mem_generate_tags (element : DefElement) (a p : Bool) :
    "Craftable" ∈ generate_tags element a p ↔
      ((element.children.map DefElement.name).contains "costList") = true := by
  unfold generate_tags
  simp only [List.mem_append, mem_ite_singleton]
  simp

/-- Claim C8 (craftable tag heuristic): a record's tags contain
`"Craftable"` iff an element named `costList` is present among the record
root's immediate children. -/
theorem craftable_tag_iff (element : DefElement) :
    "Craftable" ∈ (mkRecord element).tags ↔ ∃ c ∈ element.children, c.name = "costList" := by
  have h := craftable_mem_generate_tags element
    (((getAttr element.attributes "Abstract").map (fun v => v == "True")).getD false)
    ((getAttr element.attributes "ParentName").isSome)
  have heq : (mkRecord element).tags = generate_tags element
      (((getAttr element.attributes "Abstract").map (fun v => v == "True")).getD false)
      ((getAttr element.attributes "ParentName").isSome) := rfl
  rw [heq, h]
  simp [eq_comm]

theorem find?_append_first (l1 l2 : List DefElement) (p : DefElement → Bool)
    (c : DefElement) (hc : p c = true) (hpre : ∀ x ∈ l1, p x = false) :
    (l1 ++ c :: l2).find? p = some c := by
  induction l1 with
  | nil => simp [List.find?_cons, hc]
  | cons a t ih =>
    have ha := hpre a (List.mem_cons_self a t)
    rw [List.cons_append, List.find?_cons, ha]
    exact ih (fun x hx => hpre x (List.mem_cons_of_mem a hx))

/-- Claim C9 (first-match semantics for profile fields): when a record
root has several direct children named `defName`, `label` or
`description`, the identity, label and description are taken from the
first such child in document order; later same-named siblings are
ignored. -/
theorem first_match_profile_fields (element : DefElement) (pre post : List DefElement)
    (c : DefElement) :
    (element.children = pre ++ c :: post → c.name = "defName" →
      (∀ x ∈ pre, x.name ≠ "defName") → getAttr element.attributes "Name" = none →
      (mkRecord element).def_name = c.content.getD "Unknown")
    ∧ (element.children = pre ++ c :: post → c.name = "label" →
      (∀ x ∈ pre, x.name ≠ "label") →
      (mkRecord element).label = c.content)
    ∧ (element.children = pre ++ c :: post → c.name = "description" →
      (∀ x ∈ pre, x.name ≠ "description") →
      (mkRecord element).description = c.content) := by
  refine ⟨?_, ?_, ?_⟩
  · intro hch hc hpre hnone
    have hfind : element.children.find? (fun x => x.name == "defName") = some c := by
      rw [hch]
      exact find?_append_first pre post _ c (by simp [hc])
        (fun x hx => by simp [hpre x hx])
    cases hcc : c.content with
    | none => simp only [mkRecord, hnone, hfind, Option.some_bind, hcc, Option.getD_none]
    | some v => simp only [mkRecord, hnone, hfind, Option.some_bind, hcc, Option.getD_some]
  · intro hch hc hpre
    have hfind : element.children.find? (fun x => x.name == "label") = some c := by
      rw [hch]
      exact find?_append_first pre post _ c (by simp [hc])
        (fun x hx => by simp [hpre x hx])
    simp only [mkRecord, hfind, Option.some_bind]
  · intro hch hc hpre
    have hfind : element.children.find? (fun x => x.name == "description") = some c := by
      rw [hch]
      exact find?_append_first pre post _ c (by simp [hc])
        (fun x hx => by simp [hpre x hx])
    simp only [mkRecord, hfind, Option.some_bind]

/-- A root with duplicated `defName`, `label` and `description` children. -/
def demoElDup : DefElement :=
  .mk "ThingDef" [] none
    [.mk "defName" [] (some "First") [] 1, .mk "defName" [] (some "Second") [] 1,
     .mk "label" [] (some "L1") [] 1, .mk "label" [] (some "L2") [] 1,
     .mk "description" [] (some "D1") [] 1, .mk "description" [] (some "D2") [] 1] 0

theorem first_match_profile_fields_witness :
    (mkRecord demoElDup).def_name = "First"
    ∧ (mkRecord demoElDup).label = some "L1"
    ∧ (mkRecord demoElDup).description = some "D1" := by
  refine ⟨?_, ?_, ?_⟩
  · exact (first_match_profile_fields demoElDup []
      [.mk "defName" [] (some "Second") [] 1,
       .mk "label" [] (some "L1") [] 1, .mk "label" [] (some "L2") [] 1,
       .mk "description" [] (some "D1") [] 1, .mk "description" [] (some "D2") [] 1]
      (.mk "defName" [] (some "First") [] 1)).1 rfl rfl (by simp) rfl
  · exact (first_match_profile_fields demoElDup
      [.mk "defName" [] (some "First") [] 1, .mk "defName" [] (some "Second") [] 1]
      [.mk "label" [] (some "L2") [] 1,
       .mk "description" [] (some "D1") [] 1, .mk "description" [] (some "D2") [] 1]
      (.mk "label" [] (some "L1") [] 1)).2.1 rfl rfl (by decide)
  · exact (first_match_profile_fields demoElDup
      [.mk "defName" [] (some "First") [] 1, .mk "defName" [] (some "Second") [] 1,
       .mk "label" [] (some "L1") [] 1, .mk "label" [] (some "L2") [] 1]
      [.mk "description" [] (some "D2") [] 1]
      (.mk "description" [] (some "D1") [] 1)).2.2 rfl rfl (by decide)

/-- A record named `Q` whose body mentions itself, a real record `W`, and
a token `junk` that is no record's identity. -/
def demoQ : RimWorldDef :=
  ⟨"Q", "ThingDef", none, none, none, false,
    [.mk "Q" [] none [] 1, .mk "W" [] none [] 1, .mk "junk" [] none [] 1],
    [], none, [], [], []⟩

/-- A record named `W` with no body. -/
def demoW : RimWorldDef :=
  ⟨"W", "ThingDef", none, none, none, false, [], [], none, [], [], []⟩

/-- The validity-filtering scenario for claim C3. -/
def demoC3Defs : List RimWorldDef := [demoQ, demoW]

theorem references_out_exact_witness :
    (((build_reference_mappings demoC3Defs)[0]?).map RimWorldDef.references_out).getD [] = ["W"]
    ∧ "Q" ∉ (((build_reference_mappings demoC3Defs)[0]?).map RimWorldDef.references_out).getD [] := by
  have h0 : (build_reference_mappings demoC3Defs)[0]? =
      some { demoQ with references_out := ["W"], references_in := [] } := by rfl
  have h := references_out_exact demoC3Defs 0 demoQ _ rfl h0
  constructor
  · rw [h0]
    simp only [Option.map_some', Option.getD_some]
  · rw [h0]
    simp only [Option.map_some', Option.getD_some]
    exact h.2.2.2
